import Mathlib

/-!
Shallow embedding of the two GitHub-automation scripts of this repository,
`update_readmes.py` and `update_jekyll_readmes.py`, together with proofs
about the aggregation, scoping, rendering and splicing logic they share.

Python strings are modelled as Lean `String` (lists of unicode scalar
values); `len`, slicing and comparison on Python strings coincide with
character counts on this model.  Python string methods used by the scripts
(`startswith`, `endswith`, `replace`, `split`, `str in str`,
`re.match`/`re.sub` on the concrete patterns appearing in the sources) are
modelled by the executable functions below, defined on `List Char`.
-/

namespace OpenData

/-- A `datetime` value as used by the scripts (commit author timestamps and
the wall-clock "now").  Python compares `datetime` lexicographically on
(year, month, day, hour, minute, second). -/
structure Dt where
  y : Nat
  mo : Nat
  d : Nat
  h : Nat
  mi : Nat
  s : Nat
deriving DecidableEq

/-- Strict lexicographic order on timestamps, Python's `datetime.__lt__`. -/
def Dt.lt (a b : Dt) : Prop :=
  a.y < b.y ∨ (a.y = b.y ∧ (a.mo < b.mo ∨ (a.mo = b.mo ∧ (a.d < b.d ∨ (a.d = b.d ∧
    (a.h < b.h ∨ (a.h = b.h ∧ (a.mi < b.mi ∨ (a.mi = b.mi ∧ a.s < b.s)))))))))

/-- Lexicographic order on timestamps, Python's `datetime.__le__`. -/
def Dt.le (a b : Dt) : Prop :=
  a.y < b.y ∨ (a.y = b.y ∧ (a.mo < b.mo ∨ (a.mo = b.mo ∧ (a.d < b.d ∨ (a.d = b.d ∧
    (a.h < b.h ∨ (a.h = b.h ∧ (a.mi < b.mi ∨ (a.mi = b.mi ∧ a.s ≤ b.s)))))))))

instance (a b : Dt) : Decidable (Dt.lt a b) := by unfold Dt.lt; exact inferInstance

instance (a b : Dt) : Decidable (Dt.le a b) := by unfold Dt.le; exact inferInstance

/-- The per-file record kept in the change map: `date`, `commit_message`
(first line of the message), `commit_url`, `author`
(`update_readmes.py` lines 110-116, identical in the Jekyll variant). -/
structure ChangeRecord where
  date : Dt
  commit_message : String
  commit_url : String
  author : String
deriving DecidableEq

/-- The data the scripts read from one commit of the GitHub commit list:
`commit.commit.author.date`, the full `commit.commit.message`,
`commit.html_url`, `commit.commit.author.name`, and the list of touched
file paths (`file.filename` for `file in commit.files`). -/
structure Commit where
  date : Dt
  message : String
  html_url : String
  author_name : String
  files : List String
deriving DecidableEq

/-- Two-digit zero padding used by `strftime` fields `%m %d %H %M %S`. -/
def pad2 (n : Nat) : String :=
  if n < 10 then "0" ++ toString n else toString n

/-- `strftime("%Y-%m-%d")` on a timestamp. -/
def fmtDate (t : Dt) : String :=
  toString t.y ++ "-" ++ pad2 t.mo ++ "-" ++ pad2 t.d

/-- `strftime("%Y-%m-%d %H:%M:%S")` on a timestamp. -/
def fmtDateTime (t : Dt) : String :=
  fmtDate t ++ " " ++ pad2 t.h ++ ":" ++ pad2 t.mi ++ ":" ++ pad2 t.s

/-- Boolean "is a list-of-chars prefix of": `pfx p l` is true exactly when
`p` is an initial segment of `l`. -/
def pfx : List Char → List Char → Bool
  | [], _ => true
  | _ :: _, [] => false
  | a :: as, b :: bs => a = b && pfx as bs

/-- First index at which pattern `p` occurs in `l`, if any. -/
def findOcc (p : List Char) : List Char → Option Nat
  | [] => if p.isEmpty then some 0 else none
  | c :: cs => if pfx p (c :: cs) then some 0 else (findOcc p cs).map (· + 1)

/-- Substring test: does pattern `p` occur anywhere in `l`?  Models
Python's `p in l` on strings (for nonempty `p`). -/
def hasSubL (p : List Char) : List Char → Bool
  | [] => p.isEmpty
  | c :: cs => pfx p (c :: cs) || hasSubL p cs

/-- `pat in s` for strings (the script uses it with the two marker
constants, which are nonempty). -/
def pyContains (s pat : String) : Bool := hasSubL pat.toList s.toList

/-- `s.startswith(pre)`. -/
def pyStartsWith (s pre : String) : Bool := pfx pre.toList s.toList

/-- `s.endswith(suf)`. -/
def pyEndsWith (s suf : String) : Bool := pfx suf.toList.reverse s.toList.reverse

/-- Fuel-driven engine of Python's `str.replace(pat, rep)` (all
non-overlapping occurrences, scanning left to right).  With
`fuel ≥ l.length` the fuel never runs out; the wrapper `pyReplace`
supplies exactly that much. -/
def replF (P R : List Char) : Nat → List Char → List Char
  | 0, l => l
  | _ + 1, [] => []
  | fuel + 1, c :: cs =>
    if pfx P (c :: cs) then R ++ replF P R fuel ((c :: cs).drop P.length)
    else c :: replF P R fuel cs

/-- Occurrence replacement on char lists, with the canonical fuel. -/
def replAllL (P R l : List Char) : List Char := replF P R l.length l

/-- Python's `s.replace(pat, rep)` for nonempty `pat` (the scripts only
replace the nonempty literals `" "`, `".md"`, `".markdown"`, `"-"`). -/
def pyReplace (s pat rep : String) : String :=
  String.mk (replAllL pat.toList rep.toList s.toList)

/-- Fuel-driven engine of `re.sub(re.escape(S) + ".*?" + re.escape(E),
F, content, flags=re.DOTALL)` for literal nonempty markers `S`, `E` and a
replacement `F` that contains no backslash (so that `re.sub` inserts it
literally): every leftmost non-greedy span from an occurrence of `S` to
the first following occurrence of `E` is replaced by `F`.  With
`fuel ≥ l.length` the fuel never runs out. -/
def scanSubF (S E F : List Char) : Nat → List Char → List Char
  | 0, l => l
  | _ + 1, [] => []
  | fuel + 1, c :: cs =>
    if pfx S (c :: cs) then
      match findOcc E ((c :: cs).drop S.length) with
      | some i => F ++ scanSubF S E F fuel ((((c :: cs).drop S.length)).drop (i + E.length))
      | none => c :: scanSubF S E F fuel cs
    else c :: scanSubF S E F fuel cs

/-- The marker-bounded substitution on char lists, with the canonical fuel. -/
def subAllL (S E F l : List Char) : List Char := scanSubF S E F l.length l

/-- `re.sub` of the marker-delimited section, as a `String` operation. -/
def pySubNG (startM endM frag content : String) : String :=
  String.mk (subAllL startM.toList endM.toList frag.toList content.toList)

/-- `START_MARKER` of both scripts. -/
def START_MARKER : String := "<!-- RECENT_CHANGES_START -->"

/-- `END_MARKER` of both scripts. -/
def END_MARKER : String := "<!-- RECENT_CHANGES_END -->"

/-- The splice step at the char-list level: if both markers occur in the
current content, substitute the non-greedy marker-to-marker spans by the
rendered fragment; otherwise append the fragment after two newlines. -/
def spliceL (content frag : List Char) : List Char :=
  if hasSubL START_MARKER.toList content && hasSubL END_MARKER.toList content then
    subAllL START_MARKER.toList END_MARKER.toList frag content
  else content ++ '\n' :: '\n' :: frag

/-- The splice step shared by `update_readme` (lines 169-176) and
`update_file` (lines 249-256). -/
def spliceContent (content frag : String) : String :=
  String.mk (spliceL content.toList frag.toList)

/-- `message.split('\n')[0]`: the first line of a commit message. -/
def headlineStr (msg : String) : String :=
  String.mk (msg.toList.takeWhile (fun ch => ch != '\n'))

/-- The commit-message truncation of the renderers
(`update_readmes.py` lines 147-149): messages longer than 60 characters
become their first 57 characters followed by `"..."`. -/
def truncMsg (m : String) : String :=
  if m.length > 60 then String.mk (m.toList.take 57) ++ "..." else m

/-- The commit-message table cell as a function of the full commit
message: the aggregator stores the first line (`split('\n')[0]`,
line 113) and the renderer truncates it (lines 147-149). -/
def commitMessageCell (msg : String) : String := truncMsg (headlineStr msg)

/-- Characters after the last `'/'`: `os.path.basename` for the POSIX
paths the scripts handle. -/
def basenameL (l : List Char) : List Char :=
  (l.reverse.takeWhile (fun ch => ch != '/')).reverse

/-- `os.path.basename`. -/
def basename (p : String) : String := String.mk (basenameL p.toList)

/-- `posixpath.dirname`: the part before the last `'/'` with trailing
slashes stripped (kept whole when it consists only of slashes). -/
def dirnameL (l : List Char) : List Char :=
  let head := (l.reverse.dropWhile (fun ch => ch != '/')).reverse
  if head.all (fun ch => ch = '/') then head
  else (head.reverse.dropWhile (fun ch => ch = '/')).reverse

/-- `os.path.dirname`. -/
def dirname (p : String) : String := String.mk (dirnameL p.toList)

/-- Split a char list at `'/'` separators (Python `"a/b".split("/")`:
empty pieces are kept; the result is never empty). -/
def splitSlash : List Char → List (List Char)
  | [] => [[]]
  | c :: cs =>
    if c = '/' then [] :: splitSlash cs
    else match splitSlash cs with
      | h :: t => (c :: h) :: t
      | [] => [[c]]

/-- Join path components with `'/'`. -/
def joinSlash : List (List Char) → List Char
  | [] => []
  | [x] => x
  | x :: xs => x ++ '/' :: joinSlash xs

/-- Length of the longest common elementwise prefix of two component
lists (`os.path.commonprefix` on lists). -/
def commonLen : List (List Char) → List (List Char) → Nat
  | a :: as, b :: bs => if a = b then commonLen as bs + 1 else 0
  | _, _ => 0

/-- Models `posixpath.relpath(path, start)` for the inputs reachable in
the scripts: both arguments are normalized repository-relative paths
(no leading slash and no `.`/`..` components), so the current working
directory that `relpath` prepends to both cancels out.  Empty components
are discarded, the common prefix is removed, and each remaining `start`
component becomes `".."`. -/
def relpath (path start : String) : String :=
  let pl := (splitSlash path.toList).filter (fun x => !x.isEmpty)
  let sl := (splitSlash start.toList).filter (fun x => !x.isEmpty)
  let i := commonLen sl pl
  let parts := List.replicate (sl.length - i) ['.', '.'] ++ pl.drop i
  if parts.isEmpty then "." else String.mk (joinSlash parts)

/-- The relative link computed by `update_readme` (lines 151-156): path
of the changed file relative to the README's directory, or the path
itself when the README sits at the repository root. -/
def relFrom (target changed : String) : String :=
  if dirname target = "" then changed else relpath changed (dirname target)

/-- Index of the last occurrence of `ch` in `l`, if any. -/
def lastIdx (ch : Char) : List Char → Option Nat
  | [] => none
  | c :: cs =>
    match lastIdx ch cs with
    | some i => some (i + 1)
    | none => if c = ch then some 0 else none

/-- Extension part of `os.path.splitext` on a basename: everything from
the last dot on, except that a basename consisting of leading dots only
before that dot (such as `.bashrc`) has no extension. -/
def extOfBase (base : List Char) : List Char :=
  match lastIdx '.' base with
  | none => []
  | some j => if (base.take j).any (fun ch => ch != '.') then base.drop j else []

/-- `os.path.splitext(p)[1]`. -/
def splitextExt (p : String) : String := String.mk (extOfBase (basenameL p.toList))

/-- ASCII `str.lower()` (the scripts compare against ASCII literals). -/
def pyLower (s : String) : String := String.mk (s.toList.map Char.toLower)

/-- ASCII `str.capitalize()`: first character upper-cased, the rest
lower-cased. -/
def pyCapitalize (s : String) : String :=
  match s.toList with
  | [] => ""
  | c :: cs => String.mk (c.toUpper :: cs.map Char.toLower)

/-- Python whitespace for `str.strip()`. -/
def isPySpace (c : Char) : Bool :=
  c = ' ' || c = '\t' || c = '\n' || c = '\r' || c = '\x0b' || c = '\x0c'

/-- `str.strip()`. -/
def pyStrip (s : String) : String :=
  String.mk (((s.toList.dropWhile isPySpace).reverse.dropWhile isPySpace).reverse)

/-- One exclusion rule.  Each regex in the scripts' `EXCLUDE_PATTERNS`
is, under `re.match` (anchored at the start), either a literal-prefix
rule `^lit.*` / `^lit/.*` or a whole-string rule `^lit$` (where `$` also
accepts one trailing newline). -/
inductive ExcludeRule where
  | startRule (lit : String)
  | wholeRule (lit : String)
deriving DecidableEq

/-- Whether a rule matches a path. -/
def ExcludeRule.matchB : ExcludeRule → String → Bool
  | .startRule lit, p => pyStartsWith p lit
  | .wholeRule lit, p => p = lit || p = lit ++ "\n"

/-- `EXCLUDE_PATTERNS` of `update_readmes.py` (lines 18-23). -/
def EXCLUDE_PATTERNS : List ExcludeRule :=
  [.startRule ".git", .startRule ".github", .wholeRule "LICENSE", .wholeRule ".gitignore"]

/-- `EXCLUDE_PATTERNS` of `update_jekyll_readmes.py` (lines 18-27). -/
def EXCLUDE_PATTERNS_JEKYLL : List ExcludeRule :=
  EXCLUDE_PATTERNS ++
    [.startRule "_site/", .startRule ".sass-cache/", .startRule ".jekyll-cache/",
     .startRule "vendor/"]

/-- `should_exclude` of `update_readmes.py` (lines 29-34): true when some
rule matches, rules tried in order. -/
def should_exclude (p : String) : Bool := EXCLUDE_PATTERNS.any (·.matchB p)

/-- `should_exclude` of `update_jekyll_readmes.py` (lines 44-49). -/
def shouldExcludeJekyll (p : String) : Bool := EXCLUDE_PATTERNS_JEKYLL.any (·.matchB p)

/-- The change map: a path-keyed association list.  Python's `dict`
preserves first-insertion order and updates in place, which `setA`
mirrors. -/
abbrev AList := List (String × ChangeRecord)

/-- Lookup by key (first matching entry). -/
def lookupA : AList → String → Option ChangeRecord
  | [], _ => none
  | kv :: rest, k => if kv.1 = k then some kv.2 else lookupA rest k

/-- `dict[k] = v`: replace in place if the key is present, else append. -/
def setA : AList → String → ChangeRecord → AList
  | [], k, v => [(k, v)]
  | kv :: rest, k, v => if kv.1 = k then (k, v) :: rest else kv :: setA rest k v

/-- The record built from one commit (`update_readmes.py` lines 111-116):
author date, first message line, commit URL, author name. -/
def commitRecord (c : Commit) : ChangeRecord :=
  ⟨c.date, headlineStr c.message, c.html_url, c.author_name⟩

/-- Processing of one touched file inside one commit
(`update_readmes.py` lines 102-116): skip excluded paths; otherwise keep
the new record when the path is unseen or the commit date is strictly
later than the stored one. -/
def stepFile (excl : String → Bool) (c : Commit) (m : AList) (f : String) : AList :=
  if excl f then m
  else
    match lookupA m f with
    | none => setA m f (commitRecord c)
    | some r => if Dt.lt r.date c.date then setA m f (commitRecord c) else m

/-- Processing of one commit: fold `stepFile` over its touched files. -/
def stepCommit (excl : String → Bool) (m : AList) (c : Commit) : AList :=
  c.files.foldl (stepFile excl c) m

/-- The change aggregator `get_repo_changes` (lines 95-118 of
`update_readmes.py`, lines 130-153 of the Jekyll variant), as a function
of the commit list the GitHub API returns (at most the 100 most recent
commits of the default branch) and of the variant's exclusion filter. -/
def get_repo_changes (excl : String → Bool) (commits : List Commit) : AList :=
  commits.foldl (stepCommit excl) []

/-- All records a commit list contributes for path `p`, in processing
order: one per occurrence of `p` in a commit's file list. -/
def obsRecords (commits : List Commit) (p : String) : List ChangeRecord :=
  commits.flatMap fun c =>
    c.files.filterMap fun f => if f = p then some (commitRecord c) else none

/-- The records contributed for one path by one commit, in file order. -/
def obsOf (c : Commit) (p : String) : List ChangeRecord :=
  c.files.filterMap fun f => if f = p then some (commitRecord c) else none

/-- "The map agrees with the observations seen so far for `p`": no entry
when nothing was observed, otherwise the entry is one of the observed
records and its date is the latest observed. -/
def AgreesP (m : AList) (p : String) (rs : List ChangeRecord) : Prop :=
  match lookupA m p with
  | none => rs = []
  | some r => r ∈ rs ∧ ∀ r2 ∈ rs, Dt.le r2.date r.date

/-- Descending-recency order on map entries, the key order of
`sorted(dir_files.items(), key=lambda x: x[1]['date'], reverse=True)`. -/
def recGe (a b : String × ChangeRecord) : Prop := Dt.le b.2.date a.2.date

instance (a b : String × ChangeRecord) : Decidable (recGe a b) := by
  unfold recGe; exact inferInstance

/-- `NUM_FILES` of both scripts. -/
def NUM_FILES : Nat := 10

/-- The directory prefix a README scopes to (`get_directory_changes`
lines 55-59): empty at the repository root, else the directory followed
by `'/'`. -/
def dirPref (target : String) : String :=
  if dirname target = "" then "" else dirname target ++ "/"

/-- The directory scoper `get_directory_changes` (lines 53-78 of
`update_readmes.py`, identical at lines 88-113 of the Jekyll variant):
keep the map entries under the target's directory prefix other than the
target itself, sort by date newest first (Python's sort is stable;
insertion sort with this non-strict descending relation is the same
stable sort), and keep the first `NUM_FILES`. -/
def get_directory_changes (target : String) (m : AList) : AList :=
  ((m.filter fun kv => pyStartsWith kv.1 (dirPref target) && kv.1 != target).insertionSort
      recGe).take NUM_FILES

/-- The fixed table header of both renderers. -/
def tableHeader : String :=
  "| File | Last Updated | Author | Commit Message |\n| ---- | ------------ | ------ | -------------- |\n"

/-- One table row of `update_readme` (lines 145-163): label is the
changed file's basename, the link is its path relative to the README's
directory with spaces percent-encoded, then date, author, and the
(possibly truncated) message linked to the commit URL. -/
def renderRowPlain (target : String) (e : String × ChangeRecord) : String :=
  "| [" ++ basename e.1 ++ "](" ++ pyReplace (relFrom target e.1) " " "%20" ++ ") | " ++
    fmtDate e.2.date ++ " | " ++ e.2.author ++ " | [" ++ truncMsg e.2.commit_message ++ "](" ++
    e.2.commit_url ++ ") |\n"

/-- The fragment `update_readme` renders (lines 137-167): start marker,
heading, "last updated" line with the wall-clock time, then either the
table or the no-changes sentence, then the end marker. -/
def renderFragmentPlain (target : String) (recentFiles : AList) (now : Dt) : String :=
  START_MARKER ++
    ("\n## Recently Updated Files\n\n*Last updated: " ++ fmtDateTime now ++ "*\n\n" ++
      (if recentFiles.isEmpty then "*No recent changes found in this directory*\n"
       else tableHeader ++ String.join (recentFiles.map (renderRowPlain target))) ++
      "\n") ++
    END_MARKER

/-- `JEKYLL_DIRS` of `update_jekyll_readmes.py` (lines 30-38). -/
def JEKYLL_DIRS : List String :=
  ["_posts", "_pages", "_layouts", "_includes", "assets", "img", "video"]

/-- Shape test for the ten characters `\d{4}-\d{2}-\d{2}` of the
blog-post regex. -/
def dateShape : List Char → Bool
  | [a, b, c, d, h1, e, f, h2, g, h] =>
    a.isDigit && b.isDigit && c.isDigit && d.isDigit && h1 = '-' && e.isDigit && f.isDigit &&
      h2 = '-' && g.isDigit && h.isDigit
  | _ => false

/-- Split `l` around its first occurrence of `".md"`; `none` when the
pattern does not occur. -/
def findMdSplit : List Char → Option (List Char × List Char)
  | [] => none
  | c :: cs =>
    if pfx ['.', 'm', 'd'] (c :: cs) then some ([], (c :: cs).drop 3)
    else (findMdSplit cs).map fun pr => (c :: pr.1, pr.2)

/-- `re.match(r'_posts/(\d{4}-\d{2}-\d{2})-(.*?)\.md', file_path)`
(line 222 of the Jekyll script): an anchored prefix match returning the
date and slug groups.  The non-greedy slug is the text up to the first
`".md"`; since `.` does not match newlines, the match fails if that text
contains one. -/
def postMatch (p : String) : Option (String × String) :=
  let cs := p.toList
  if pfx "_posts/".toList cs then
    let r := cs.drop 7
    if dateShape (r.take 10) && (r.drop 10).head? = some '-' then
      match findMdSplit (r.drop 11) with
      | some pr =>
        if pr.1.contains '\n' then none
        else some (String.mk (r.take 10), String.mk pr.1)
      | none => none
    else none
  else none

/-- The Jekyll link/label computation of `update_file` (lines 214-238),
applied to one changed file path when the target is a Jekyll page:
blog posts get `/blog/slug` links and a `date: slug` label; other
markdown files that are not READMEs get their path with every `".md"`
and then `".markdown"` occurrence replaced by `"/"`, rooted at `/`;
anything else is linked by its path rooted at `/`.  A label that is a
README is renamed by its directory's basename (`"Main"` at the
root). -/
def jekyllLinkName (file_path : String) : String × String :=
  let file_name := basename file_path
  let pr :=
    if pyStartsWith file_path "_posts/" then
      match postMatch file_path with
      | some grps =>
        ("/blog/" ++ grps.2, grps.1 ++ ": " ++ pyReplace grps.2 "-" " ")
      | none => ("/" ++ pyReplace file_path ".md" "/", file_name)
    else if (splitextExt file_name = ".md" || splitextExt file_name = ".markdown") &&
        !pyEndsWith file_path "README.md" then
      ("/" ++ pyReplace (pyReplace file_path ".md" "/") ".markdown" "/", file_name)
    else ("/" ++ file_path, file_name)
  if pyLower pr.2 = "readme.md" then
    (pr.1, basename (if dirname file_path = "" then "Main" else dirname file_path))
  else pr

/-- The link target the Jekyll variant renders for a changed file. -/
def jekyllFileLink (file_path : String) : String := (jekyllLinkName file_path).1

/-- One table row of the Jekyll `update_file` (lines 197-243).  When the
target is not a Jekyll page the label is the basename and the link is the
percent-encoded relative path; note that the loop variable shadows the
target parameter, so `current_dir` is the changed file's own directory
(lines 204-208). -/
def renderRowJekyllS (isJekyll : Bool) (e : String × ChangeRecord) : String :=
  let rel := if dirname e.1 = "" then e.1 else relpath e.1 (dirname e.1)
  let relLink := pyReplace rel " " "%20"
  let pr := if isJekyll then jekyllLinkName e.1 else (relLink, basename e.1)
  "| [" ++ pr.2 ++ "](" ++ pr.1 ++ ") | " ++ fmtDate e.2.date ++ " | " ++ e.2.author ++
    " | [" ++ truncMsg e.2.commit_message ++ "](" ++ e.2.commit_url ++ ") |\n"

/-- The fragment the Jekyll `update_file` renders (lines 183-247); the
heading is the same string in both branches of the `is_jekyll` test. -/
def renderFragmentJekyll (isJekyll : Bool) (recentFiles : AList) (now : Dt) : String :=
  START_MARKER ++
    ("\n## Recently Updated Files\n\n*Last updated: " ++ fmtDateTime now ++ "*\n\n" ++
      (if recentFiles.isEmpty then "*No recent changes found in this directory*\n"
       else tableHeader ++ String.join (recentFiles.map (renderRowJekyllS isJekyll))) ++
      "\n") ++
    END_MARKER

/-- Result of reading one file: its text, a missing-file condition
(Python `FileNotFoundError`), or any other I/O error. -/
inductive ReadResult where
  | ok (content : String)
  | notFound
  | err (msg : String)
deriving DecidableEq

/-- The file system visible to one run: text content by path. -/
def FS := String → ReadResult

/-- Writing a file: `open(path, 'w')` followed by `write` replaces that
path's content and touches nothing else. -/
def writeFS (fs : FS) (target content : String) : FS :=
  fun p => if p = target then .ok content else fs p

/-- The placeholder `update_readme` synthesizes for a missing README
(lines 126-129): `# {dirname or "Root"} Directory`. -/
def placeholderPlain (target : String) : String :=
  let dn := if dirname target = "" then "Root" else dirname target
  "# " ++ dn ++ " Directory\n\n"

/-- `update_readme` (lines 120-180) as a file-system transformer: read
the target (a missing file becomes the placeholder, any other read error
propagates), render the scoped fragment, splice, and write the result
back to the target. -/
def updateReadme (fs : FS) (target : String) (m : AList) (now : Dt) : Except String FS :=
  let frag := renderFragmentPlain target (get_directory_changes target m) now
  match fs target with
  | .err e => .error e
  | .notFound => .ok (writeFS fs target (spliceContent (placeholderPlain target) frag))
  | .ok content => .ok (writeFS fs target (spliceContent content frag))

/-- `update_all_readmes`' per-target loop (lines 194-196): update each
discovered README in turn; an uncaught exception aborts the run, leaving
the already-written targets in place. -/
def runAllReadmes (targets : List String) (m : AList) (now : Dt) (fs : FS) :
    FS × Option String :=
  match targets with
  | [] => (fs, none)
  | t :: ts =>
    match updateReadme fs t m now with
    | .ok fs1 => runAllReadmes ts m now fs1
    | .error e => (fs, some e)

/-- `is_jekyll_file` (Jekyll script lines 71-86): the path sits in a
Jekyll directory, or the file's first 500 characters, stripped, start
with `---`; every read failure (caught by the bare `except`) counts as
not-Jekyll. -/
def isJekyllFile (fs : FS) (p : String) : Bool :=
  JEKYLL_DIRS.any (fun d => pyStartsWith p (d ++ "/")) ||
    match fs p with
    | .ok c => pyStartsWith (pyStrip (String.mk (c.toList.take 500))) "---"
    | _ => false

/-- The placeholder the Jekyll `update_file` synthesizes for a missing
target (lines 164-175): index files get a front-matter block, both get a
capitalized `# {dir} Directory` heading. -/
def placeholderJekyll (target : String) : String :=
  let dn := if dirname target = "" then "Root" else dirname target
  if pyLower (basename target) = "index.md" then
    "---\nlayout: default\ntitle: " ++ pyCapitalize dn ++ " Directory\n---\n\n# " ++
      pyCapitalize dn ++ " Directory\n\n"
  else "# " ++ pyCapitalize dn ++ " Directory\n\n"

/-- `update_file` of the Jekyll script (lines 155-265) as a file-system
transformer. -/
def update_file (fs : FS) (target : String) (m : AList) (now : Dt) : Except String FS :=
  let isj := isJekyllFile fs target
  let frag := renderFragmentJekyll isj (get_directory_changes target m) now
  match fs target with
  | .err e => .error e
  | .notFound => .ok (writeFS fs target (spliceContent (placeholderJekyll target) frag))
  | .ok content => .ok (writeFS fs target (spliceContent content frag))

/-! ## Order lemmas for timestamps -/

theorem dt_le_refl (a : Dt) : Dt.le a a := by unfold Dt.le; omega

theorem dt_le_trans {a b c : Dt} (h1 : Dt.le a b) (h2 : Dt.le b c) : Dt.le a c := by
  unfold Dt.le at *; omega

theorem dt_le_total (a b : Dt) : Dt.le a b ∨ Dt.le b a := by unfold Dt.le; omega

theorem dt_not_lt {a b : Dt} : ¬ Dt.lt a b ↔ Dt.le b a := by unfold Dt.lt Dt.le; omega

theorem dt_lt_le {a b : Dt} (h : Dt.lt a b) : Dt.le a b := by unfold Dt.lt Dt.le at *; omega

instance : IsTotal (String × ChangeRecord) recGe :=
  ⟨fun a b => (dt_le_total b.2.date a.2.date).imp id id⟩

instance : IsTrans (String × ChangeRecord) recGe :=
  ⟨fun _ _ _ h1 h2 => dt_le_trans h2 h1⟩

/-! ## Prefix toolkit -/

theorem pfx_iff (p : List Char) : ∀ l : List Char, pfx p l = true ↔ l.take p.length = p := by
  induction p with
  | nil => intro l; simp [pfx]
  | cons a as ih =>
    intro l
    cases l with
    | nil => simp [pfx]
    | cons b bs =>
      simp only [pfx, Bool.and_eq_true, decide_eq_true_eq, List.length_cons,
        List.take_succ_cons, List.cons.injEq, ih]
      constructor
      · rintro ⟨rfl, h⟩; exact ⟨rfl, h⟩
      · rintro ⟨rfl, h⟩; exact ⟨rfl, h⟩

theorem pfx_length_le {p l : List Char} (h : pfx p l = true) : p.length ≤ l.length := by
  have ht := (pfx_iff p l).mp h
  have := congrArg List.length ht
  simp [List.length_take] at this
  omega

theorem pfx_append_self (p t : List Char) : pfx p (p ++ t) = true := by
  rw [pfx_iff, List.take_append_of_le_length (Nat.le_refl _), List.take_length]

theorem pfx_extend {p u : List Char} (v : List Char) (h : pfx p u = true) :
    pfx p (u ++ v) = true := by
  have hl := pfx_length_le h
  rw [pfx_iff] at h ⊢
  rw [List.take_append_of_le_length hl, h]

theorem pfx_append_room {p u : List Char} (v : List Char) (h : p.length ≤ u.length) :
    pfx p (u ++ v) = pfx p u := by
  rw [Bool.eq_iff_iff, pfx_iff, pfx_iff, List.take_append_of_le_length h]

theorem pfx_nil_iff (p : List Char) : pfx p [] = true ↔ p = [] := by
  cases p <;> simp [pfx]

theorem pfx_decomp {p a b : List Char} {i : Nat} (hi : i ≤ a.length)
    (h : pfx p ((a ++ b).drop i) = true) :
    p = (a.drop i).take p.length ++ b.take (p.length - (a.length - i)) := by
  have ht := (pfx_iff p _).mp h
  rw [List.drop_append_of_le_length hi, List.take_append_eq_append_take,
    List.length_drop] at ht
  exact ht.symm

theorem pfx_head {s0 x : Char} {sT xs : List Char} (h : pfx (s0 :: sT) (x :: xs) = true) :
    s0 = x := by
  simp only [pfx, Bool.and_eq_true, decide_eq_true_eq] at h
  exact h.1

/-! ## Substring and first-occurrence lemmas -/

theorem hasSubL_iff (p : List Char) :
    ∀ l : List Char, hasSubL p l = true ↔ ∃ i, pfx p (l.drop i) = true := by
  intro l
  induction l with
  | nil =>
    simp only [hasSubL, List.isEmpty_iff, List.drop_nil]
    constructor
    · rintro rfl; exact ⟨0, rfl⟩
    · rintro ⟨i, hp⟩; exact (pfx_nil_iff p).mp hp
  | cons c cs ih =>
    simp only [hasSubL, Bool.or_eq_true, ih]
    constructor
    · rintro (h | ⟨i, h⟩)
      · exact ⟨0, h⟩
      · exact ⟨i + 1, by simpa using h⟩
    · rintro ⟨i, h⟩
      cases i with
      | zero => exact Or.inl h
      | succ j => exact Or.inr ⟨j, by simpa using h⟩

theorem findOcc_some {p l : List Char} {i : Nat} (h : findOcc p l = some i) :
    pfx p (l.drop i) = true ∧ ∀ j, j < i → pfx p (l.drop j) = false := by
  induction l generalizing i with
  | nil =>
    rw [findOcc] at h
    by_cases hp : p.isEmpty = true
    · rw [if_pos hp] at h
      injection h with h
      subst h
      refine ⟨?_, by omega⟩
      rw [List.isEmpty_iff] at hp
      subst hp; rfl
    · rw [if_neg hp] at h
      exact absurd h (by simp)
  | cons c cs ih =>
    rw [findOcc] at h
    by_cases hp : pfx p (c :: cs) = true
    · rw [if_pos hp] at h
      injection h with h
      subst h
      exact ⟨hp, by omega⟩
    · rw [if_neg hp] at h
      rw [Option.map_eq_some'] at h
      obtain ⟨j, hj, rfl⟩ := h
      obtain ⟨h1, h2⟩ := ih hj
      refine ⟨by simpa using h1, ?_⟩
      intro k hk
      cases k with
      | zero => simpa using (Bool.not_eq_true _).mp hp
      | succ k2 => simpa using h2 k2 (by omega)

theorem findOcc_none {p l : List Char} (h : findOcc p l = none) :
    ∀ j, pfx p (l.drop j) = false := by
  induction l with
  | nil =>
    intro j
    rw [findOcc] at h
    by_cases hp : p.isEmpty = true
    · rw [if_pos hp] at h
      exact absurd h (by simp)
    · rw [List.isEmpty_iff] at hp
      simp only [List.drop_nil]
      exact (Bool.not_eq_true _).mp fun hc => hp ((pfx_nil_iff p).mp hc)
  | cons c cs ih =>
    intro j
    rw [findOcc] at h
    by_cases hp : pfx p (c :: cs) = true
    · rw [if_pos hp] at h
      exact absurd h (by simp)
    · rw [if_neg hp] at h
      rw [Option.map_eq_none'] at h
      cases j with
      | zero => simpa using (Bool.not_eq_true _).mp hp
      | succ k => simpa using ih h k

theorem findOcc_exact {p l : List Char} {m : Nat} (hp : pfx p (l.drop m) = true)
    (hmin : ∀ j, j < m → pfx p (l.drop j) = false) : findOcc p l = some m := by
  cases hf : findOcc p l with
  | none => exact absurd hp (by simp [findOcc_none hf m])
  | some i =>
    obtain ⟨h1, h2⟩ := findOcc_some hf
    have : ¬ i < m := fun hc => by simp [hmin i hc] at h1
    have : ¬ m < i := fun hc => by simp [h2 m hc] at hp
    congr 1; omega

/-! ## Canonical-fuel lemmas for `replF` -/

theorem len_one_of_ne_nil {P : List Char} (hP : P ≠ []) : 1 ≤ P.length := by
  cases P with
  | nil => exact absurd rfl hP
  | cons x xs => simp

theorem replF_fuel {P R : List Char} (hP : P ≠ []) :
    ∀ f1 f2 l, l.length ≤ f1 → l.length ≤ f2 → replF P R f1 l = replF P R f2 l := by
  intro f1
  induction f1 with
  | zero =>
    intro f2 l h1 _
    have hl : l = [] := by cases l <;> simp_all
    subst hl
    cases f2 <;> rfl
  | succ f ih =>
    intro f2 l h1 h2
    cases l with
    | nil => cases f2 <;> rfl
    | cons c cs =>
      cases f2 with
      | zero => simp at h2
      | succ g =>
        have hP1 : 1 ≤ P.length := len_one_of_ne_nil hP
        have hlen : ((c :: cs).drop P.length).length ≤ cs.length := by
          simp only [List.length_drop, List.length_cons]
          omega
        simp only [List.length_cons] at h1 h2
        simp only [replF]
        by_cases hp : pfx P (c :: cs) = true
        · rw [if_pos hp, if_pos hp]
          congr 1
          exact ih g _ (by omega) (by omega)
        · rw [if_neg hp, if_neg hp]
          rw [ih g cs (by omega) (by omega)]

theorem replAll_nil (P R : List Char) : replAllL P R [] = [] := rfl

theorem replAll_cons_pos {P : List Char} (R : List Char) {c : Char} {cs : List Char}
    (hP : P ≠ []) (hp : pfx P (c :: cs) = true) :
    replAllL P R (c :: cs) = R ++ replAllL P R ((c :: cs).drop P.length) := by
  have hP1 : 1 ≤ P.length := len_one_of_ne_nil hP
  have hlen : ((c :: cs).drop P.length).length ≤ cs.length := by
    simp only [List.length_drop, List.length_cons]
    omega
  unfold replAllL
  rw [List.length_cons, replF, if_pos hp]
  congr 1
  exact replF_fuel hP _ _ _ (by omega) (by omega)

theorem replAll_cons_neg {P : List Char} (R : List Char) {c : Char} {cs : List Char}
    (hP : P ≠ []) (hp : pfx P (c :: cs) = false) :
    replAllL P R (c :: cs) = c :: replAllL P R cs := by
  unfold replAllL
  rw [List.length_cons, replF, if_neg (by simp [hp])]

theorem replAll_skip {P R : List Char} (hP : P ≠ []) :
    ∀ a w, (∀ i, i < a.length → pfx P ((a ++ w).drop i) = false) →
      replAllL P R (a ++ w) = a ++ replAllL P R w := by
  intro a
  induction a with
  | nil => intro w _; rfl
  | cons c a2 ih =>
    intro w h
    have h0 : pfx P (c :: (a2 ++ w)) = false := by simpa using h 0 (by simp)
    rw [List.cons_append, replAll_cons_neg R hP h0, ih w fun i hi => by
      simpa using h (i + 1) (by simpa using Nat.succ_lt_succ hi), List.cons_append]

theorem replAll_none {P R : List Char} (hP : P ≠ []) :
    ∀ l, (∀ i, pfx P (l.drop i) = false) → replAllL P R l = l := by
  intro l
  induction l with
  | nil => intro _; rfl
  | cons c cs ih =>
    intro h
    rw [replAll_cons_neg R hP (by simpa using h 0), ih fun i => by simpa using h (i + 1)]

/-! ## Canonical-fuel lemmas for the marker substitution `scanSubF` -/

theorem scanSubF_fuel {S E F : List Char} (hS : S ≠ []) :
    ∀ f1 f2 l, l.length ≤ f1 → l.length ≤ f2 → scanSubF S E F f1 l = scanSubF S E F f2 l := by
  have hS1 : 1 ≤ S.length := len_one_of_ne_nil hS
  intro f1
  induction f1 with
  | zero =>
    intro f2 l h1 _
    have hl : l = [] := by cases l <;> simp_all
    subst hl
    cases f2 <;> rfl
  | succ f ih =>
    intro f2 l h1 h2
    cases l with
    | nil => cases f2 <;> rfl
    | cons c cs =>
      cases f2 with
      | zero => simp at h2
      | succ g =>
        have hlen : ∀ k, (((c :: cs).drop S.length).drop k).length ≤ cs.length := by
          intro k
          simp only [List.length_drop, List.length_cons]
          omega
        simp only [List.length_cons] at h1 h2
        simp only [scanSubF]
        by_cases hp : pfx S (c :: cs) = true
        · rw [if_pos hp, if_pos hp]
          cases hf : findOcc E ((c :: cs).drop S.length) with
          | some i =>
            simp only []
            congr 1
            have := hlen (i + E.length)
            exact ih g _ (by omega) (by omega)
          | none =>
            simp only []
            rw [ih g cs (by omega) (by omega)]
        · rw [if_neg hp, if_neg hp]
          rw [ih g cs (by omega) (by omega)]

theorem subAll_nil (S E F : List Char) : subAllL S E F [] = [] := rfl

theorem subAll_cons_neg {S : List Char} (E F : List Char) {c : Char} {cs : List Char}
    (hS : S ≠ []) (hp : pfx S (c :: cs) = false) :
    subAllL S E F (c :: cs) = c :: subAllL S E F cs := by
  unfold subAllL
  rw [List.length_cons, scanSubF, if_neg (by simp [hp])]

theorem subAll_cons_none {S E : List Char} (F : List Char) {c : Char} {cs : List Char}
    (hS : S ≠ []) (hp : pfx S (c :: cs) = true)
    (hf : findOcc E ((c :: cs).drop S.length) = none) :
    subAllL S E F (c :: cs) = c :: subAllL S E F cs := by
  unfold subAllL
  rw [List.length_cons, scanSubF, if_pos hp, hf]

theorem subAll_cons_some {S E : List Char} (F : List Char) {c : Char} {cs : List Char}
    {i : Nat} (hS : S ≠ []) (hp : pfx S (c :: cs) = true)
    (hf : findOcc E ((c :: cs).drop S.length) = some i) :
    subAllL S E F (c :: cs) =
      F ++ subAllL S E F ((((c :: cs).drop S.length)).drop (i + E.length)) := by
  have hS1 : 1 ≤ S.length := len_one_of_ne_nil hS
  have hlen : ((((c :: cs).drop S.length)).drop (i + E.length)).length ≤ cs.length := by
    simp only [List.length_drop, List.length_cons]
    omega
  unfold subAllL
  rw [List.length_cons, scanSubF, if_pos hp, hf]
  show F ++ scanSubF S E F cs.length _ = F ++ scanSubF S E F _ _
  congr 1
  exact scanSubF_fuel hS cs.length _ _ hlen (Nat.le_refl _)

/-! ## Behaviour of the marker substitution -/

theorem subAll_skip {S E F : List Char} (hS : S ≠ []) :
    ∀ a w, (∀ i, i < a.length → pfx S ((a ++ w).drop i) = false) →
      subAllL S E F (a ++ w) = a ++ subAllL S E F w := by
  intro a
  induction a with
  | nil => intro w _; rfl
  | cons c a2 ih =>
    intro w h
    have h0 : pfx S (c :: (a2 ++ w)) = false := by simpa using h 0 (by simp)
    rw [List.cons_append, subAll_cons_neg E F hS h0, ih w fun i hi => by
      simpa using h (i + 1) (by simpa using Nat.succ_lt_succ hi), List.cons_append]

theorem subAll_headF {S E F MF : List Char} (hS : S ≠ []) (hE : E ≠ [])
    (hF : F = S ++ MF ++ E)
    (hEuniq : ∀ i, pfx E (F.drop i) = true → i = S.length + MF.length) (x : List Char) :
    subAllL S E F (F ++ x) = F ++ subAllL S E F x := by
  obtain ⟨s0, sT, hScons⟩ : ∃ s0 sT, S = s0 :: sT := by
    cases S with
    | nil => exact absurd rfl hS
    | cons a b => exact ⟨a, b, rfl⟩
  have hassoc : F ++ x = S ++ (MF ++ (E ++ x)) := by
    rw [hF]; simp [List.append_assoc]
  have hcons : F ++ x = s0 :: (sT ++ (MF ++ (E ++ x))) := by
    rw [hassoc, hScons]; rfl
  have hp : pfx S (s0 :: (sT ++ (MF ++ (E ++ x)))) = true := by
    rw [← hcons, hassoc]; exact pfx_append_self S _
  have hdropS : (s0 :: (sT ++ (MF ++ (E ++ x)))).drop S.length = MF ++ (E ++ x) := by
    rw [← hcons, hassoc]; exact List.drop_left S _
  have hmdE : ∀ j, j < MF.length → pfx E ((MF ++ (E ++ x)).drop j) = false := by
    intro j hj
    by_contra hq
    have hq2 : pfx E ((MF ++ (E ++ x)).drop j) = true := by
      cases hb : pfx E ((MF ++ (E ++ x)).drop j) with
      | false => exact absurd hb hq
      | true => rfl
    have hjle : j ≤ MF.length := Nat.le_of_lt hj
    have hsplit : (MF ++ (E ++ x)).drop j = (MF ++ E).drop j ++ x := by
      rw [← List.append_assoc, List.drop_append_of_le_length (by
        simp only [List.length_append]; omega)]
    rw [hsplit] at hq2
    have hroom : E.length ≤ ((MF ++ E).drop j).length := by
      simp only [List.length_drop, List.length_append]
      have := len_one_of_ne_nil hE
      omega
    rw [pfx_append_room x hroom] at hq2
    have hFdrop : F.drop (S.length + j) = (MF ++ E).drop j := by
      rw [hF, List.append_assoc, List.drop_append_eq_append_drop]
      have h1 : S.drop (S.length + j) = [] := by
        apply List.drop_eq_nil_of_le
        omega
      rw [h1]
      simp only [List.nil_append]
      congr 1
      omega
    have := hEuniq (S.length + j) (by rw [hFdrop]; exact hq2)
    omega
  have hfo : findOcc E ((s0 :: (sT ++ (MF ++ (E ++ x)))).drop S.length) = some MF.length := by
    rw [hdropS]
    apply findOcc_exact
    · rw [List.drop_left MF (E ++ x)]
      exact pfx_append_self E x
    · exact hmdE
  have hstep := subAll_cons_some F hS hp hfo
  rw [← hcons] at hstep
  have hdropS2 : (F ++ x).drop S.length = MF ++ (E ++ x) := by
    rw [hassoc]; exact List.drop_left S _
  rw [hstep, hdropS2]
  have hrest : (MF ++ (E ++ x)).drop (MF.length + E.length) = x := by
    rw [← List.append_assoc]
    have : MF.length + E.length = (MF ++ E).length := by simp [List.length_append]
    rw [this]
    exact List.drop_left (MF ++ E) x
  rw [hrest]

theorem subAll_fm {S E F : List Char} (hS : S ≠ []) (hE : E ≠ []) :
    ∀ l, (subAllL S E F l = l ∧ ∀ a m r, l ≠ a ++ S ++ m ++ E ++ r) ∨
      ∃ a m r, l = a ++ S ++ m ++ E ++ r ∧
        subAllL S E F l = a ++ F ++ subAllL S E F r ∧ ∀ i, pfx S (a.drop i) = false := by
  have hS1 : 1 ≤ S.length := len_one_of_ne_nil hS
  have hE1 : 1 ≤ E.length := len_one_of_ne_nil hE
  suffices H : ∀ n l, l.length ≤ n →
      (subAllL S E F l = l ∧ ∀ a m r, l ≠ a ++ S ++ m ++ E ++ r) ∨
      ∃ a m r, l = a ++ S ++ m ++ E ++ r ∧
        subAllL S E F l = a ++ F ++ subAllL S E F r ∧ ∀ i, pfx S (a.drop i) = false by
    exact fun l => H l.length l (Nat.le_refl _)
  intro n
  induction n with
  | zero =>
    intro l hl
    have : l = [] := by cases l <;> simp_all
    subst this
    refine Or.inl ⟨rfl, ?_⟩
    intro a m r hc
    have := congrArg List.length hc
    simp only [List.length_nil, List.length_append] at this
    omega
  | succ n ih =>
    intro l hl
    cases l with
    | nil =>
      refine Or.inl ⟨rfl, ?_⟩
      intro a m r hc
      have := congrArg List.length hc
      simp only [List.length_nil, List.length_append] at this
      omega
    | cons c cs =>
      simp only [List.length_cons] at hl
      by_cases hp : pfx S (c :: cs) = true
      · cases hfo : findOcc E ((c :: cs).drop S.length) with
        | some i =>
          right
          obtain ⟨hpe, _⟩ := findOcc_some hfo
          have hcs : c :: cs = S ++ (c :: cs).drop S.length := by
            conv_lhs => rw [← List.take_append_drop S.length (c :: cs)]
            rw [(pfx_iff S (c :: cs)).mp hp]
          have hu : (c :: cs).drop S.length =
              ((c :: cs).drop S.length).take i ++ E ++
                ((c :: cs).drop S.length).drop (i + E.length) := by
            conv_lhs => rw [← List.take_append_drop i ((c :: cs).drop S.length)]
            have hE2 : ((c :: cs).drop S.length).drop i =
                E ++ (((c :: cs).drop S.length).drop i).drop E.length := by
              conv_lhs =>
                rw [← List.take_append_drop E.length (((c :: cs).drop S.length).drop i)]
              rw [(pfx_iff E _).mp hpe]
            rw [hE2, List.drop_drop, List.append_assoc]
          refine ⟨[], ((c :: cs).drop S.length).take i,
            ((c :: cs).drop S.length).drop (i + E.length), ?_, ?_, ?_⟩
          · simp only [List.nil_append]
            conv_lhs => rw [hcs]
            conv_lhs => rw [hu]
            simp [List.append_assoc]
          · rw [subAll_cons_some F hS hp hfo]
            simp [List.append_assoc]
          · intro j
            simp only [List.drop_nil]
            cases hb : pfx S [] with
            | false => rfl
            | true => exact absurd ((pfx_nil_iff S).mp hb) hS
        | none =>
          have heq := subAll_cons_none F hS hp hfo
          rcases ih cs (by omega) with ⟨hid, hnm⟩ | ⟨a, m, r, hdec, _, _⟩
          · refine Or.inl ⟨by rw [heq, hid], ?_⟩
            intro a m r hc
            cases a with
            | nil =>
              simp only [List.nil_append] at hc
              have hdropE : (c :: cs).drop S.length = m ++ E ++ r := by
                rw [hc]
                have : S.length ≤ S.length := Nat.le_refl _
                rw [List.append_assoc, List.append_assoc]
                rw [List.drop_left S _]
                simp [List.append_assoc]
              have := findOcc_none hfo m.length
              rw [hdropE, List.append_assoc, List.drop_left m (E ++ r),
                pfx_append_self E r] at this
              exact Bool.true_eq_false.mp this
            | cons c2 a2 =>
              have hc2 : cs = a2 ++ S ++ m ++ E ++ r := by
                simpa using congrArg List.tail hc
              exact hnm a2 m r hc2
          · exfalso
            obtain ⟨s0, sT, hScons⟩ : ∃ s0 sT, S = s0 :: sT := by
              cases S with
              | nil => exact absurd rfl hS
              | cons u v => exact ⟨u, v, rfl⟩
            have hdropsT : (c :: cs).drop S.length = cs.drop sT.length := by
              rw [hScons]; rfl
            have hre : a ++ S ++ m ++ E ++ r = (a ++ S ++ m) ++ (E ++ r) := by
              simp [List.append_assoc]
            have hq : cs.drop (a ++ S ++ m).length = E ++ r := by
              rw [hdec, hre]
              exact List.drop_left _ _
            have hsTle : sT.length ≤ (a ++ S ++ m).length := by
              simp only [List.length_append, hScons, List.length_cons]
              omega
            have := findOcc_none hfo ((a ++ S ++ m).length - sT.length)
            rw [hdropsT, List.drop_drop] at this
            have harith : sT.length + ((a ++ S ++ m).length - sT.length) =
                (a ++ S ++ m).length := by omega
            rw [harith, hq, pfx_append_self E r] at this
            exact Bool.true_eq_false.mp this
      · have hpf : pfx S (c :: cs) = false := (Bool.not_eq_true _).mp hp
        have heq := subAll_cons_neg E F hS hpf
        rcases ih cs (by omega) with ⟨hid, hnm⟩ | ⟨a, m, r, hdec, hsub, hns⟩
        · refine Or.inl ⟨by rw [heq, hid], ?_⟩
          intro a m r hc
          cases a with
          | nil =>
            simp only [List.nil_append] at hc
            rw [hc, List.append_assoc, List.append_assoc] at hp
            exact hp (pfx_append_self S _)
          | cons c2 a2 =>
            have hc2 : cs = a2 ++ S ++ m ++ E ++ r := by
              simpa using congrArg List.tail hc
            exact hnm a2 m r hc2
        · right
          refine ⟨c :: a, m, r, ?_, ?_, ?_⟩
          · rw [hdec]; simp [List.cons_append]
          · rw [heq, hsub]; simp [List.cons_append]
          · intro i
            cases i with
            | zero =>
              simp only [List.drop_zero]
              cases hb : pfx S (c :: a) with
              | false => rfl
              | true =>
                exfalso
                have hext : pfx S ((c :: a) ++ (S ++ m ++ E ++ r)) = true :=
                  pfx_extend _ hb
                have hceq : (c :: a) ++ (S ++ m ++ E ++ r) = c :: cs := by
                  rw [hdec]; simp [List.cons_append, List.append_assoc]
                rw [hceq] at hext
                exact hp hext
            | succ j => simpa using hns j

theorem subAll_idem {S E F MF : List Char} (hS : S ≠ []) (hE : E ≠ [])
    (hF : F = S ++ MF ++ E)
    (hEuniq : ∀ i, pfx E (F.drop i) = true → i = S.length + MF.length)
    (hNoOv : ∀ k, 1 ≤ k → k < S.length → S.drop (S.length - k) ≠ S.take k) :
    ∀ l, subAllL S E F (subAllL S E F l) = subAllL S E F l := by
  have hS1 : 1 ≤ S.length := len_one_of_ne_nil hS
  have hE1 : 1 ≤ E.length := len_one_of_ne_nil hE
  have hFlen : F.length = S.length + MF.length + E.length := by
    rw [hF]; simp only [List.length_append]
  suffices H : ∀ n l, l.length ≤ n → subAllL S E F (subAllL S E F l) = subAllL S E F l by
    exact fun l => H l.length l (Nat.le_refl _)
  intro n
  induction n with
  | zero =>
    intro l hl
    have : l = [] := by cases l <;> simp_all
    subst this
    rfl
  | succ n ih =>
    intro l hl
    rcases subAll_fm hS hE l with ⟨hid, _⟩ | ⟨a, m, r, hdec, hsub, hns⟩
    · rw [hid, hid]
    · rw [hsub]
      have hskip : ∀ i, i < a.length → pfx S ((a ++ (F ++ subAllL S E F r)).drop i) = false := by
        intro i hi
        by_cases hroom : i + S.length ≤ a.length
        · rw [List.drop_append_of_le_length (Nat.le_of_lt hi)]
          rw [pfx_append_room _ (by simp only [List.length_drop]; omega)]
          exact hns i
        · cases hb : pfx S ((a ++ (F ++ subAllL S E F r)).drop i) with
          | false => rfl
          | true =>
            exfalso
            have hdecS := pfx_decomp (Nat.le_of_lt hi) hb
            have htk : (a.drop i).take S.length = a.drop i :=
              List.take_of_length_le (by simp only [List.length_drop]; omega)
            rw [htk] at hdecS
            set k := S.length - (a.length - i) with hk
            have hk1 : 1 ≤ k := by omega
            have hk2 : k < S.length := by omega
            have htake : (F ++ subAllL S E F r).take k = S.take k := by
              rw [List.take_append_of_le_length (by omega), hF, List.append_assoc,
                List.take_append_of_le_length (by omega)]
            rw [htake] at hdecS
            have hdroplen : (a.drop i).length = S.length - k := by
              simp only [List.length_drop]; omega
            have hfin : S.drop (S.length - k) = S.take k := by
              have h1 : (a.drop i ++ S.take k).drop ((a.drop i).length) = S.take k :=
                List.drop_left _ _
              rw [← hdecS, hdroplen] at h1
              exact h1
            exact hNoOv k hk1 hk2 hfin
      rw [List.append_assoc, subAll_skip hS a (F ++ subAllL S E F r) hskip,
        subAll_headF hS hE hF hEuniq (subAllL S E F r)]
      have hrlen : r.length ≤ n := by
        have hlen3 := congrArg List.length hdec
        simp only [List.length_append] at hlen3
        omega
      rw [ih r hrlen]

/-! ## Splice-level lemmas -/

theorem pfx_self (p : List Char) : pfx p p = true := by
  have := pfx_append_self p []
  simpa using this

theorem hasSub_of_occ {P l : List Char} {i : Nat} (h : pfx P (l.drop i) = true) :
    hasSubL P l = true := (hasSubL_iff P l).mpr ⟨i, h⟩

theorem drop_pad (cl fl : List Char) :
    (cl ++ '\n' :: '\n' :: fl).drop (cl.length + 2) = fl := by
  have he : cl ++ '\n' :: '\n' :: fl = (cl ++ ['\n', '\n']) ++ fl := by
    simp [List.append_assoc]
  have hlen2 : (cl ++ ['\n', '\n']).length = cl.length + 2 := by
    simp [List.length_append]
  rw [he, ← hlen2, List.drop_left]

theorem subAll_marks {S E F mid l : List Char} (hS : S ≠ []) (hE : E ≠ [])
    (hF : F = S ++ mid ++ E) (hclS : hasSubL S l = true) (hclE : hasSubL E l = true) :
    hasSubL S (subAllL S E F l) = true ∧ hasSubL E (subAllL S E F l) = true := by
  rcases subAll_fm (F := F) hS hE l with ⟨hid, _⟩ | ⟨a, m, r, _, hsub, _⟩
  · rw [hid]; exact ⟨hclS, hclE⟩
  · rw [hsub]
    constructor
    · apply hasSub_of_occ (i := a.length)
      rw [List.append_assoc, List.drop_left a _, hF]
      simp only [List.append_assoc]
      exact pfx_append_self S _
    · apply hasSub_of_occ (i := (a ++ S ++ mid).length)
      have he2 : a ++ F ++ subAllL S E F r =
          (a ++ S ++ mid) ++ (E ++ subAllL S E F r) := by
        rw [hF]; simp [List.append_assoc]
      rw [he2, List.drop_left _ _]
      exact pfx_append_self E _

theorem subAll_contains_of_match {S E F l a m b : List Char} (hS : S ≠ []) (hE : E ≠ [])
    (hdec : l = a ++ S ++ m ++ E ++ b) : hasSubL F (subAllL S E F l) = true := by
  rcases subAll_fm (F := F) hS hE l with ⟨_, hnm⟩ | ⟨a2, m2, r2, _, hsub, _⟩
  · exact absurd hdec (hnm a m b)
  · rw [hsub]
    apply hasSub_of_occ (i := a2.length)
    rw [List.append_assoc, List.drop_left a2 _]
    exact pfx_append_self F _

theorem noStart_through_pad {S cl w : List Char} (hS : S ≠ []) (hNL : ('\n' : Char) ∉ S)
    (hnosub : hasSubL S cl = false) :
    ∀ i, i < cl.length + 2 → pfx S ((cl ++ '\n' :: '\n' :: w).drop i) = false := by
  intro i hi
  cases hb : pfx S ((cl ++ '\n' :: '\n' :: w).drop i) with
  | false => rfl
  | true =>
    exfalso
    by_cases hin : i < cl.length
    · have hdecS := pfx_decomp (Nat.le_of_lt hin) hb
      by_cases hroom : i + S.length ≤ cl.length
      · have hsplit : (cl ++ '\n' :: '\n' :: w).drop i = cl.drop i ++ '\n' :: '\n' :: w :=
          List.drop_append_of_le_length (Nat.le_of_lt hin)
        rw [hsplit, pfx_append_room _ (by simp only [List.length_drop]; omega)] at hb
        have : hasSubL S cl = true := hasSub_of_occ hb
        rw [this] at hnosub
        exact Bool.true_eq_false.mp hnosub
      · have htk : (cl.drop i).take S.length = cl.drop i :=
          List.take_of_length_le (by simp only [List.length_drop]; omega)
        rw [htk] at hdecS
        have hpos : 1 ≤ S.length - (cl.length - i) := by
          have := len_one_of_ne_nil hS
          omega
        have : ('\n' : Char) ∈ S := by
          rw [hdecS]
          apply List.mem_append_right
          have hne : S.length - (cl.length - i) ≠ 0 := by omega
          cases hk : S.length - (cl.length - i) with
          | zero => exact absurd hk hne
          | succ k2 => simp [List.take_succ_cons]
        exact hNL this
    · have hge : cl.length ≤ i := Nat.le_of_not_lt hin
      have hsplit : (cl ++ '\n' :: '\n' :: w).drop i =
          ('\n' :: '\n' :: w).drop (i - cl.length) := by
        rw [List.drop_append_eq_append_drop, List.drop_eq_nil_of_le hge, List.nil_append]
      rw [hsplit] at hb
      obtain ⟨s0, sT, hScons⟩ : ∃ s0 sT, S = s0 :: sT := by
        cases S with
        | nil => exact absurd rfl hS
        | cons u v => exact ⟨u, v, rfl⟩
      have hnlhead : s0 = '\n' := by
        have h2 : i - cl.length = 0 ∨ i - cl.length = 1 := by omega
        rcases h2 with h2 | h2
        · rw [h2, List.drop_zero, hScons] at hb
          exact pfx_head hb
        · rw [h2, hScons] at hb
          exact pfx_head hb
      apply hNL
      rw [hScons, hnlhead]
      exact List.mem_cons_self _ _

theorem subAll_append_pad {S E F mid cl : List Char} (hS : S ≠ []) (hE : E ≠ [])
    (hNL : ('\n' : Char) ∉ S) (hF : F = S ++ mid ++ E)
    (hEuniq : ∀ i, pfx E (F.drop i) = true → i = S.length + mid.length)
    (hnosub : hasSubL S cl = false) :
    subAllL S E F (cl ++ '\n' :: '\n' :: F) = cl ++ '\n' :: '\n' :: F := by
  have hform : cl ++ '\n' :: '\n' :: F = (cl ++ ['\n', '\n']) ++ F := by
    simp [List.append_assoc]
  have hskip : ∀ i, i < (cl ++ ['\n', '\n']).length →
      pfx S (((cl ++ ['\n', '\n']) ++ F).drop i) = false := by
    intro i hi
    rw [← hform]
    apply noStart_through_pad hS hNL hnosub
    simpa [List.length_append] using hi
  have hFfix : subAllL S E F F = F := by
    have h2 := subAll_headF hS hE hF hEuniq []
    have h0 : subAllL S E F [] = [] := rfl
    rw [h0] at h2
    simpa using h2
  rw [hform, subAll_skip hS _ _ hskip, hFfix]

theorem spliceL_idem {cl fl mid : List Char}
    (hmid : fl = START_MARKER.toList ++ mid ++ END_MARKER.toList)
    (hEuniq : ∀ i, pfx END_MARKER.toList (fl.drop i) = true →
      i = START_MARKER.toList.length + mid.length)
    (himp : hasSubL START_MARKER.toList cl = true → hasSubL END_MARKER.toList cl = true) :
    spliceL (spliceL cl fl) fl = spliceL cl fl := by
  have hS : START_MARKER.toList ≠ [] := by decide
  have hE : END_MARKER.toList ≠ [] := by decide
  have hNL : ('\n' : Char) ∉ START_MARKER.toList := by decide
  have hNoOvB : ∀ k, k < START_MARKER.toList.length → (1 ≤ k →
      START_MARKER.toList.drop (START_MARKER.toList.length - k) ≠
        START_MARKER.toList.take k) := by decide
  have hNoOv : ∀ k, 1 ≤ k → k < START_MARKER.toList.length →
      START_MARKER.toList.drop (START_MARKER.toList.length - k) ≠
        START_MARKER.toList.take k := fun k h1 h2 => hNoOvB k h2 h1
  by_cases hA : hasSubL START_MARKER.toList cl = true
  · have hAE := himp hA
    have hcond : (hasSubL START_MARKER.toList cl && hasSubL END_MARKER.toList cl) = true := by
      rw [hA, hAE]; rfl
    have hO1 : spliceL cl fl = subAllL START_MARKER.toList END_MARKER.toList fl cl := by
      unfold spliceL; rw [if_pos hcond]
    obtain ⟨hmS, hmE⟩ := subAll_marks hS hE hmid hA hAE
    rw [hO1]
    have hcond2 : (hasSubL START_MARKER.toList
        (subAllL START_MARKER.toList END_MARKER.toList fl cl) &&
        hasSubL END_MARKER.toList
          (subAllL START_MARKER.toList END_MARKER.toList fl cl)) = true := by
      rw [hmS, hmE]; rfl
    unfold spliceL
    rw [if_pos hcond2]
    exact subAll_idem hS hE hmid hEuniq hNoOv cl
  · have hAf : hasSubL START_MARKER.toList cl = false := (Bool.not_eq_true _).mp hA
    have hcond : (hasSubL START_MARKER.toList cl && hasSubL END_MARKER.toList cl) = false := by
      rw [hAf]; rfl
    have hO1 : spliceL cl fl = cl ++ '\n' :: '\n' :: fl := by
      unfold spliceL
      rw [if_neg (by intro hc; rw [hc] at hcond; exact Bool.true_eq_false.mp hcond)]
    rw [hO1]
    have hoS : hasSubL START_MARKER.toList (cl ++ '\n' :: '\n' :: fl) = true := by
      apply hasSub_of_occ (i := cl.length + 2)
      rw [drop_pad, hmid, List.append_assoc]
      exact pfx_append_self _ _
    have hoE : hasSubL END_MARKER.toList (cl ++ '\n' :: '\n' :: fl) = true := by
      apply hasSub_of_occ
        (i := ((cl ++ ['\n', '\n']) ++ (START_MARKER.toList ++ mid)).length)
      have hform : cl ++ '\n' :: '\n' :: fl =
          ((cl ++ ['\n', '\n']) ++ (START_MARKER.toList ++ mid)) ++ END_MARKER.toList := by
        rw [hmid]; simp [List.append_assoc]
      rw [hform, List.drop_left]
      exact pfx_self _
    have hcond2 : (hasSubL START_MARKER.toList (cl ++ '\n' :: '\n' :: fl) &&
        hasSubL END_MARKER.toList (cl ++ '\n' :: '\n' :: fl)) = true := by
      rw [hoS, hoE]; rfl
    unfold spliceL
    rw [if_pos hcond2]
    exact subAll_append_pad hS hE hNL hmid hEuniq hAf

theorem spliceContent_idem {c frag : String} {mid : List Char}
    (hmid : frag.toList = START_MARKER.toList ++ mid ++ END_MARKER.toList)
    (hEuniq : ∀ i, pfx END_MARKER.toList (frag.toList.drop i) = true →
      i = START_MARKER.toList.length + mid.length)
    (himp : pyContains c START_MARKER = true → pyContains c END_MARKER = true) :
    spliceContent (spliceContent c frag) frag = spliceContent c frag := by
  unfold spliceContent
  congr 1
  exact spliceL_idem hmid hEuniq himp

/-! ## Change-aggregator lemmas -/

theorem lookup_setA_self (m : AList) (k : String) (v : ChangeRecord) :
    lookupA (setA m k v) k = some v := by
  induction m with
  | nil => simp [setA, lookupA]
  | cons kv rest ih =>
    by_cases h : kv.1 = k
    · simp [setA, h, lookupA]
    · simp [setA, h, lookupA, ih]

theorem lookup_setA_other {k p : String} (m : AList) (v : ChangeRecord) (hne : p ≠ k) :
    lookupA (setA m k v) p = lookupA m p := by
  induction m with
  | nil =>
    simp only [setA, lookupA]
    rw [if_neg (fun hc : k = p => hne hc.symm)]
  | cons kv rest ih =>
    simp only [setA]
    by_cases h : kv.1 = k
    · rw [if_pos h]
      simp only [lookupA]
      rw [if_neg (fun hc : k = p => hne hc.symm), if_neg (by rw [h]; exact fun hc => hne hc.symm)]
    · rw [if_neg h]
      simp only [lookupA]
      by_cases h3 : kv.1 = p
      · rw [if_pos h3, if_pos h3]
      · rw [if_neg h3, if_neg h3, ih]

theorem mem_keys_setA {x k : String} (m : AList) (v : ChangeRecord) :
    x ∈ (setA m k v).map Prod.fst ↔ x ∈ m.map Prod.fst ∨ x = k := by
  induction m with
  | nil => simp [setA]
  | cons kv rest ih =>
    simp only [setA]
    by_cases h : kv.1 = k
    · rw [if_pos h]
      simp only [List.map_cons, List.mem_cons]
      subst h
      tauto
    · rw [if_neg h]
      simp only [List.map_cons, List.mem_cons, ih]
      tauto

theorem nodup_setA {k : String} {m : AList} (v : ChangeRecord)
    (h : (m.map Prod.fst).Nodup) : ((setA m k v).map Prod.fst).Nodup := by
  induction m with
  | nil => simp [setA]
  | cons kv rest ih =>
    simp only [List.map_cons, List.nodup_cons] at h
    simp only [setA]
    by_cases hk : kv.1 = k
    · rw [if_pos hk]
      simp only [List.map_cons, List.nodup_cons]
      exact ⟨by rw [← hk]; exact h.1, h.2⟩
    · rw [if_neg hk]
      simp only [List.map_cons, List.nodup_cons]
      refine ⟨?_, ih h.2⟩
      rw [mem_keys_setA]
      rintro (hc | hc)
      · exact h.1 hc
      · exact hk hc

theorem nodup_stepFile {excl : String → Bool} {c : Commit} {m : AList} (f : String)
    (h : (m.map Prod.fst).Nodup) : ((stepFile excl c m f).map Prod.fst).Nodup := by
  unfold stepFile
  by_cases he : excl f = true
  · simpa [he]
  · rw [if_neg he]
    cases lookupA m f with
    | none => exact nodup_setA _ h
    | some r =>
      by_cases hd : Dt.lt r.date c.date
      · simpa [hd] using nodup_setA (commitRecord c) h
      · simpa [hd]

theorem nodup_agg (excl : String → Bool) (commits : List Commit) :
    ((get_repo_changes excl commits).map Prod.fst).Nodup := by
  suffices H : ∀ (cs : List Commit) (m : AList), (m.map Prod.fst).Nodup →
      ((cs.foldl (stepCommit excl) m).map Prod.fst).Nodup by
    exact H commits [] (by simp)
  intro cs
  induction cs with
  | nil => intro m h; simpa
  | cons c rest ih =>
    intro m h
    simp only [List.foldl_cons]
    apply ih
    unfold stepCommit
    generalize m = m0 at h
    induction c.files generalizing m0 with
    | nil => simpa
    | cons f fs ihf => exact ihf _ (nodup_stepFile f h)

theorem stepFile_eq_excl {excl : String → Bool} {c : Commit} {m : AList} {f : String}
    (he : excl f = true) : stepFile excl c m f = m := by
  simp [stepFile, he]

theorem stepFile_eq_new {excl : String → Bool} {c : Commit} {m : AList} {f : String}
    (he : excl f = false) (hm : lookupA m f = none) :
    stepFile excl c m f = setA m f (commitRecord c) := by
  simp [stepFile, he, hm]

theorem stepFile_eq_upd {excl : String → Bool} {c : Commit} {m : AList} {f : String}
    {r : ChangeRecord} (he : excl f = false) (hm : lookupA m f = some r)
    (hd : Dt.lt r.date c.date) : stepFile excl c m f = setA m f (commitRecord c) := by
  simp [stepFile, he, hm, hd]

theorem stepFile_eq_keep {excl : String → Bool} {c : Commit} {m : AList} {f : String}
    {r : ChangeRecord} (he : excl f = false) (hm : lookupA m f = some r)
    (hd : ¬ Dt.lt r.date c.date) : stepFile excl c m f = m := by
  simp [stepFile, he, hm, hd]

theorem agreesP_none {m : AList} {p : String} {rs : List ChangeRecord}
    (hm : lookupA m p = none) : AgreesP m p rs ↔ rs = [] := by
  simp [AgreesP, hm]

theorem agreesP_some {m : AList} {p : String} {rs : List ChangeRecord} {r : ChangeRecord}
    (hm : lookupA m p = some r) :
    AgreesP m p rs ↔ (r ∈ rs ∧ ∀ r2 ∈ rs, Dt.le r2.date r.date) := by
  simp [AgreesP, hm]

theorem stepFile_agrees {excl : String → Bool} {m : AList} {p : String}
    {ds : List ChangeRecord} (c : Commit) (f : String) (hexcl : excl p = false)
    (h : AgreesP m p ds) :
    AgreesP (stepFile excl c m f) p
      (ds ++ if f = p then [commitRecord c] else []) := by
  by_cases hf : f = p
  · subst hf
    have hifeq : (if f = f then [commitRecord c] else ([] : List ChangeRecord)) =
        [commitRecord c] := if_pos rfl
    rw [hifeq]
    cases hm : lookupA m f with
    | none =>
      have hds : ds = [] := (agreesP_none hm).mp h
      subst hds
      rw [stepFile_eq_new hexcl hm]
      rw [agreesP_some (lookup_setA_self m f (commitRecord c))]
      refine ⟨by simp, ?_⟩
      intro r2 hr2
      rw [List.nil_append, List.mem_singleton] at hr2
      subst hr2
      exact dt_le_refl _
    | some r =>
      obtain ⟨hmem, hmax⟩ := (agreesP_some hm).mp h
      by_cases hd : Dt.lt r.date c.date
      · rw [stepFile_eq_upd hexcl hm hd]
        rw [agreesP_some (lookup_setA_self m f (commitRecord c))]
        refine ⟨by simp, ?_⟩
        intro r2 hr2
        rcases List.mem_append.mp hr2 with hr2 | hr2
        · exact dt_le_trans (hmax r2 hr2) (dt_lt_le hd)
        · rw [List.mem_singleton] at hr2
          subst hr2
          exact dt_le_refl _
      · rw [stepFile_eq_keep hexcl hm hd]
        rw [agreesP_some hm]
        refine ⟨List.mem_append_left _ hmem, ?_⟩
        intro r2 hr2
        rcases List.mem_append.mp hr2 with hr2 | hr2
        · exact hmax r2 hr2
        · rw [List.mem_singleton] at hr2
          subst hr2
          exact dt_not_lt.mp hd
  · have hpres : lookupA (stepFile excl c m f) p = lookupA m p := by
      by_cases he : excl f = true
      · rw [stepFile_eq_excl he]
      · have he2 : excl f = false := (Bool.not_eq_true _).mp he
        cases hm : lookupA m f with
        | none =>
          rw [stepFile_eq_new he2 hm]
          exact lookup_setA_other m _ fun hc => hf hc.symm
        | some r =>
          by_cases hd : Dt.lt r.date c.date
          · rw [stepFile_eq_upd he2 hm hd]
            exact lookup_setA_other m _ fun hc => hf hc.symm
          · rw [stepFile_eq_keep he2 hm hd]
    rw [if_neg hf, List.append_nil]
    unfold AgreesP at h ⊢
    rw [hpres]
    exact h

theorem files_fold_agrees {excl : String → Bool} {c : Commit} {p : String}
    (hexcl : excl p = false) :
    ∀ (fs : List String) (m : AList) (ds : List ChangeRecord), AgreesP m p ds →
      AgreesP (fs.foldl (stepFile excl c) m) p
        (ds ++ fs.filterMap fun f => if f = p then some (commitRecord c) else none) := by
  intro fs
  induction fs with
  | nil => intro m ds h; simpa
  | cons f fs2 ih =>
    intro m ds h
    simp only [List.foldl_cons, List.filterMap_cons]
    have hstep := stepFile_agrees c f hexcl h
    by_cases hf : f = p
    · subst hf
      simp only [if_pos rfl]
      have := ih _ _ hstep
      simpa [List.append_assoc] using this
    · simp only [if_neg hf]
      have := ih _ _ hstep
      simpa [if_neg hf] using this

theorem agg_agrees (excl : String → Bool) (commits : List Commit) (p : String)
    (hexcl : excl p = false) :
    AgreesP (get_repo_changes excl commits) p (obsRecords commits p) := by
  suffices H : ∀ (cs : List Commit) (m : AList) (ds : List ChangeRecord), AgreesP m p ds →
      AgreesP (cs.foldl (stepCommit excl) m) p (ds ++ obsRecords cs p) by
    have h0 : AgreesP ([] : AList) p [] := by
      unfold AgreesP lookupA
      rfl
    simpa using H commits [] [] h0
  intro cs
  induction cs with
  | nil =>
    intro m ds h
    simpa [obsRecords]
  | cons c rest ih =>
    intro m ds h
    simp only [List.foldl_cons]
    have hstep : AgreesP (stepCommit excl m c) p (ds ++ obsOf c p) := by
      unfold stepCommit
      exact files_fold_agrees hexcl c.files m ds h
    have := ih _ _ hstep
    have hobs : obsRecords (c :: rest) p = obsOf c p ++ obsRecords rest p := by
      simp [obsRecords, obsOf]
    rw [hobs, ← List.append_assoc]
    exact this

theorem lookup_stepFile_ne {excl : String → Bool} {c : Commit} {m : AList} {f p : String}
    (hf : f ≠ p) : lookupA (stepFile excl c m f) p = lookupA m p := by
  by_cases he : excl f = true
  · rw [stepFile_eq_excl he]
  · have he2 : excl f = false := (Bool.not_eq_true _).mp he
    cases hm : lookupA m f with
    | none =>
      rw [stepFile_eq_new he2 hm]
      exact lookup_setA_other m _ fun hc => hf hc.symm
    | some r =>
      by_cases hd : Dt.lt r.date c.date
      · rw [stepFile_eq_upd he2 hm hd]
        exact lookup_setA_other m _ fun hc => hf hc.symm
      · rw [stepFile_eq_keep he2 hm hd]

/-! ## String bridges and further helpers -/

theorem toList_append (a b : String) : (a ++ b).toList = a.toList ++ b.toList :=
  String.data_append a b

theorem mk_toList (s : String) : String.mk s.toList = s := rfl

theorem takeWhile_take {q : Char → Bool} :
    ∀ (l : List Char) (n : Nat), n ≤ (l.takeWhile q).length →
      (l.takeWhile q).take n = l.take n := by
  intro l
  induction l with
  | nil => intro n h; simp
  | cons c cs ih =>
    intro n h
    by_cases hq : q c = true
    · rw [List.takeWhile_cons_of_pos hq] at h ⊢
      cases n with
      | zero => simp
      | succ n2 =>
        simp only [List.take_succ_cons]
        simp only [List.length_cons] at h
        rw [ih n2 (by omega)]
    · rw [List.takeWhile_cons_of_neg hq] at h
      simp only [List.length_nil, Nat.le_zero] at h
      subst h
      simp

theorem takeWhile_length_le {q : Char → Bool} : ∀ l : List Char,
    (l.takeWhile q).length ≤ l.length := by
  intro l
  induction l with
  | nil => simp
  | cons c cs ih =>
    by_cases hq : q c = true
    · rw [List.takeWhile_cons_of_pos hq]
      simpa using ih
    · rw [List.takeWhile_cons_of_neg hq]
      simp

/-! ## Claim C3: directory scoper -/

/-- C3: for every target path and change map, the Directory Scoper's
result never contains the target path itself, has at most 10 entries, and
is in non-increasing timestamp order. -/
theorem directory_scoper_props (target : String) (m : AList) :
    ((get_directory_changes target m).all fun e => e.1 != target) = true ∧
      (get_directory_changes target m).length ≤ 10 ∧
      List.Pairwise recGe (get_directory_changes target m) := by
  unfold get_directory_changes
  refine ⟨?_, ?_, ?_⟩
  · rw [List.all_eq_true]
    intro e he
    have h1 : e ∈ (m.filter fun kv =>
        pyStartsWith kv.1 (dirPref target) && kv.1 != target).insertionSort recGe :=
      List.mem_of_mem_take he
    rw [(List.perm_insertionSort recGe _).mem_iff] at h1
    have h2 := (List.mem_filter.mp h1).2
    simp only [Bool.and_eq_true] at h2
    exact h2.2
  · exact List.length_take_le _ _
  · exact (List.sorted_insertionSort recGe _).sublist (List.take_sublist _ _)

/-! ## Claim C4: the aggregator keeps the most recent record per path -/

/-- C4: after aggregation the map keys are unique (at most one record per
path), a path absent from the map has no observations, and the record a
path maps to is one of that path's observed records, with the latest
observed timestamp. -/
theorem aggregator_latest_per_path (excl : String → Bool) (commits : List Commit)
    (p : String) (hexcl : excl p = false) :
    ((get_repo_changes excl commits).map Prod.fst).Nodup ∧
      (lookupA (get_repo_changes excl commits) p = none → obsRecords commits p = []) ∧
      ∀ r, lookupA (get_repo_changes excl commits) p = some r →
        r ∈ obsRecords commits p ∧ ∀ r2 ∈ obsRecords commits p, Dt.le r2.date r.date := by
  refine ⟨nodup_agg excl commits, ?_, ?_⟩
  · intro hnone
    have h := agg_agrees excl commits p hexcl
    rwa [agreesP_none hnone] at h
  · intro r hr
    have h := agg_agrees excl commits p hexcl
    rwa [agreesP_some hr] at h

/-- Witness for C4: two commits touch `a.txt` at `t1 < t2`; the map holds
the `t2` record, which is among the observed records. -/
theorem aggregator_latest_per_path_witness :
    should_exclude "a.txt" = false ∧
      lookupA (get_repo_changes should_exclude
          [⟨⟨2024, 1, 1, 0, 0, 0⟩, "m1", "u1", "A1", ["a.txt"]⟩,
           ⟨⟨2024, 1, 2, 0, 0, 0⟩, "m2", "u2", "A2", ["a.txt"]⟩]) "a.txt" =
        some ⟨⟨2024, 1, 2, 0, 0, 0⟩, "m2", "u2", "A2"⟩ ∧
      (⟨⟨2024, 1, 2, 0, 0, 0⟩, "m2", "u2", "A2"⟩ : ChangeRecord) ∈
        obsRecords
          [⟨⟨2024, 1, 1, 0, 0, 0⟩, "m1", "u1", "A1", ["a.txt"]⟩,
           ⟨⟨2024, 1, 2, 0, 0, 0⟩, "m2", "u2", "A2", ["a.txt"]⟩] "a.txt" :=
  ⟨by decide, by decide,
    ((aggregator_latest_per_path should_exclude
        [⟨⟨2024, 1, 1, 0, 0, 0⟩, "m1", "u1", "A1", ["a.txt"]⟩,
         ⟨⟨2024, 1, 2, 0, 0, 0⟩, "m2", "u2", "A2", ["a.txt"]⟩] "a.txt" (by decide)).2.2
      ⟨⟨2024, 1, 2, 0, 0, 0⟩, "m2", "u2", "A2"⟩ (by decide)).1⟩

/-! ## Claim C10: equal timestamps keep the first-encountered record -/

/-- C10: when a later-processed commit touches a path already recorded
with the same author timestamp, the strict greater-than replacement test
fails and the earlier-encountered record is kept unchanged. -/
theorem aggregator_tie_keeps_first (excl : String → Bool) (L : List Commit) (c : Commit)
    (p : String) (r : ChangeRecord) (hexcl : excl p = false) (hmem : p ∈ c.files)
    (hlook : lookupA (get_repo_changes excl L) p = some r) (htie : c.date = r.date) :
    lookupA (get_repo_changes excl (L ++ [c])) p = some r := by
  have hstep : get_repo_changes excl (L ++ [c]) =
      stepCommit excl (get_repo_changes excl L) c := by
    unfold get_repo_changes
    rw [List.foldl_append]
    rfl
  rw [hstep]
  unfold stepCommit
  have hnlt : ¬ Dt.lt r.date c.date := dt_not_lt.mpr (by rw [htie]; exact dt_le_refl _)
  suffices H : ∀ (fs : List String) (m0 : AList), lookupA m0 p = some r →
      lookupA (fs.foldl (stepFile excl c) m0) p = some r by
    exact H c.files _ hlook
  intro fs
  induction fs with
  | nil => intro m0 h; simpa using h
  | cons f fs2 ih =>
    intro m0 h
    simp only [List.foldl_cons]
    apply ih
    by_cases hf : f = p
    · subst hf
      rw [stepFile_eq_keep hexcl h hnlt]
      exact h
    · rw [lookup_stepFile_ne hf]
      exact h

/-- Witness for C10: two commits with equal timestamps on `a.txt`; the
first one's record survives. -/
theorem aggregator_tie_keeps_first_witness :
    should_exclude "a.txt" = false ∧
      lookupA (get_repo_changes should_exclude
          ([⟨⟨2024, 1, 1, 0, 0, 0⟩, "m1", "u1", "A1", ["a.txt"]⟩] ++
            [⟨⟨2024, 1, 1, 0, 0, 0⟩, "m2", "u2", "A2", ["a.txt"]⟩])) "a.txt" =
        some ⟨⟨2024, 1, 1, 0, 0, 0⟩, "m1", "u1", "A1"⟩ :=
  ⟨by decide,
    aggregator_tie_keeps_first should_exclude
      [⟨⟨2024, 1, 1, 0, 0, 0⟩, "m1", "u1", "A1", ["a.txt"]⟩]
      ⟨⟨2024, 1, 1, 0, 0, 0⟩, "m2", "u2", "A2", ["a.txt"]⟩ "a.txt"
      ⟨⟨2024, 1, 1, 0, 0, 0⟩, "m1", "u1", "A1"⟩ (by decide) (by decide) (by decide) (by decide)⟩

/-! ## Claim C5: commit-message truncation -/

/-- C5 as corrected: the rendered message cell is the first line of the
commit message, truncated to its first 57 characters plus `"..."` (60
characters in all) when the first line exceeds 60 characters, and the
first line verbatim otherwise; in the long case those 57 characters are
also the message's own first 57 characters. -/
theorem message_cell_truncation (msg : String) :
    ((headlineStr msg).length ≤ 60 → commitMessageCell msg = headlineStr msg) ∧
      (60 < (headlineStr msg).length →
        commitMessageCell msg = String.mk (msg.toList.take 57) ++ "..." ∧
          (commitMessageCell msg).length = 60) := by
  constructor
  · intro h
    unfold commitMessageCell truncMsg
    rw [if_neg (by omega)]
  · intro h
    have hlen : (headlineStr msg).length =
        (msg.toList.takeWhile (fun ch => ch != '\n')).length := rfl
    have hfirst : commitMessageCell msg = String.mk (msg.toList.take 57) ++ "..." := by
      unfold commitMessageCell truncMsg
      rw [if_pos (by omega)]
      congr 1
      show String.mk ((msg.toList.takeWhile (fun ch => ch != '\n')).take 57) =
        String.mk (msg.toList.take 57)
      congr 1
      exact takeWhile_take msg.toList 57 (by omega)
    refine ⟨hfirst, ?_⟩
    rw [hfirst]
    show (msg.toList.take 57 ++ "...".toList).length = 60
    rw [List.length_append, List.length_take]
    have h2 : (msg.toList.takeWhile (fun ch => ch != '\n')).length ≤ msg.toList.length :=
      takeWhile_length_le msg.toList
    have h3 : ("..." : String).toList.length = 3 := rfl
    omega

/-- Witness for C5's amended statement at a 70-character single-line
message. -/
theorem message_cell_truncation_witness :
    commitMessageCell "0123456789012345678901234567890123456789012345678901234567890123456789" =
      String.mk
        (List.take 57
          (String.toList
            "0123456789012345678901234567890123456789012345678901234567890123456789")) ++
        "..." :=
  ((message_cell_truncation
      "0123456789012345678901234567890123456789012345678901234567890123456789").2
    (by decide)).1

/-- Counterexample for C5 as stated: a two-line message whose first line
is within the limit is not rendered verbatim — only its first line is. -/
theorem message_cell_multiline_counterexample :
    (headlineStr "a\nb").length ≤ 60 ∧ commitMessageCell "a\nb" ≠ "a\nb" := by decide

/-! ## Claim C7: non-Jekyll row rendering -/

/-- C7: a non-Jekyll table row labels the changed file by its basename,
links it by its path relative to the README's directory with spaces
percent-encoded, and the spec's concrete example row renders exactly as
stated. -/
theorem plain_row_rendering :
    (∀ (target : String) (e : String × ChangeRecord),
      renderRowPlain target e =
        "| [" ++ basename e.1 ++ "](" ++ pyReplace (relFrom target e.1) " " "%20" ++ ") | " ++
          fmtDate e.2.date ++ " | " ++ e.2.author ++ " | [" ++ truncMsg e.2.commit_message ++
          "](" ++ e.2.commit_url ++ ") |\n") ∧
      renderRowPlain "docs/readme.md"
        ("docs/sub/file.py", ⟨⟨2024, 1, 2, 0, 0, 0⟩, "fix bug", "u", "A"⟩) =
        "| [file.py](sub/file.py) | 2024-01-02 | A | [fix bug](u) |\n" :=
  ⟨fun _ _ => rfl, by decide⟩

/-! ## Claim C1: only target files are durably changed -/

theorem updateReadme_ok_frame {fs : FS} {target : String} {m : AList} {now : Dt} {fs2 : FS}
    (h : updateReadme fs target m now = .ok fs2) : ∀ p, p ≠ target → fs2 p = fs p := by
  intro p hp
  unfold updateReadme at h
  cases hr : fs target with
  | err e => rw [hr] at h; exact absurd h (by simp)
  | notFound =>
    rw [hr] at h
    injection h with h
    rw [← h]
    unfold writeFS
    rw [if_neg hp]
  | ok c =>
    rw [hr] at h
    injection h with h
    rw [← h]
    unfold writeFS
    rw [if_neg hp]

theorem update_file_ok_frame {fs : FS} {target : String} {m : AList} {now : Dt} {fs2 : FS}
    (h : update_file fs target m now = .ok fs2) : ∀ p, p ≠ target → fs2 p = fs p := by
  intro p hp
  unfold update_file at h
  cases hr : fs target with
  | err e => rw [hr] at h; exact absurd h (by simp)
  | notFound =>
    rw [hr] at h
    injection h with h
    rw [← h]
    unfold writeFS
    rw [if_neg hp]
  | ok c =>
    rw [hr] at h
    injection h with h
    rw [← h]
    unfold writeFS
    rw [if_neg hp]

/-- C1: a whole non-Jekyll run only ever rewrites the target README paths
(the file system at any other path is untouched, also when the run aborts
midway); one `update_readme` call writes the spliced content to its own
target; one Jekyll `update_file` call also touches only its target. -/
theorem updates_touch_only_targets :
    (∀ (targets : List String) (m : AList) (now : Dt) (fs : FS) (p : String),
      p ∉ targets → (runAllReadmes targets m now fs).1 p = fs p) ∧
    (∀ (fs : FS) (target : String) (m : AList) (now : Dt) (c : String),
      fs target = .ok c →
        updateReadme fs target m now = .ok (writeFS fs target
          (spliceContent c
            (renderFragmentPlain target (get_directory_changes target m) now)))) ∧
    (∀ (fs : FS) (target : String) (m : AList) (now : Dt) (fs2 : FS) (p : String),
      update_file fs target m now = .ok fs2 → p ≠ target → fs2 p = fs p) := by
  refine ⟨?_, ?_, ?_⟩
  · intro targets
    induction targets with
    | nil => intro m now fs p _; rfl
    | cons t ts ih =>
      intro m now fs p hp
      have hpt : p ≠ t := fun hc => hp (hc ▸ List.mem_cons_self t ts)
      have hpts : p ∉ ts := fun hc => hp (List.mem_cons_of_mem t hc)
      unfold runAllReadmes
      cases hu : updateReadme fs t m now with
      | ok fs1 =>
        rw [ih m now fs1 p hpts]
        exact updateReadme_ok_frame hu p hpt
      | error e => rfl
  · intro fs target m now c hread
    unfold updateReadme
    rw [hread]
  · intro fs target m now fs2 p hu hp
    exact update_file_ok_frame hu p hp

/-- Witness for C1: a run over one README leaves another path's content
untouched, and the positive conjunct writes the spliced content. -/
theorem updates_touch_only_targets_witness :
    ("other.md" ∉ ["readme.md"]) ∧
      (runAllReadmes ["readme.md"] [] ⟨2024, 1, 2, 3, 4, 5⟩
          (fun _ => .ok "hello")).1 "other.md" = .ok "hello" :=
  ⟨by decide,
    (updates_touch_only_targets.1 ["readme.md"] [] ⟨2024, 1, 2, 3, 4, 5⟩
      (fun _ => .ok "hello") "other.md" (by decide)).trans rfl⟩

/-! ## Claim C9: only FileNotFoundError is handled; other errors abort -/

/-- C9: a missing target is no error — both scripts synthesize a
placeholder body, splice the fragment into it and write the result; a
read failure other than `FileNotFoundError` propagates out of the update
(and aborts the surrounding run at that target). -/
theorem missing_file_handling :
    (∀ (fs : FS) (target : String) (m : AList) (now : Dt),
      fs target = .notFound →
        updateReadme fs target m now = .ok (writeFS fs target
          (spliceContent (placeholderPlain target)
            (renderFragmentPlain target (get_directory_changes target m) now)))) ∧
    (∀ (fs : FS) (target : String) (m : AList) (now : Dt) (e : String),
      fs target = .err e → updateReadme fs target m now = .error e) ∧
    (∀ (fs : FS) (target : String) (m : AList) (now : Dt),
      fs target = .notFound →
        update_file fs target m now = .ok (writeFS fs target
          (spliceContent (placeholderJekyll target)
            (renderFragmentJekyll (isJekyllFile fs target)
              (get_directory_changes target m) now)))) ∧
    (∀ (fs : FS) (target : String) (m : AList) (now : Dt) (e : String),
      fs target = .err e → update_file fs target m now = .error e) ∧
    (∀ (fs : FS) (t : String) (ts : List String) (m : AList) (now : Dt) (e : String),
      fs t = .err e → runAllReadmes (t :: ts) m now fs = (fs, some e)) := by
  refine ⟨?_, ?_, ?_, ?_, ?_⟩
  · intro fs target m now h
    unfold updateReadme
    rw [h]
  · intro fs target m now e h
    unfold updateReadme
    rw [h]
  · intro fs target m now h
    unfold update_file
    rw [h]
  · intro fs target m now e h
    unfold update_file
    rw [h]
  · intro fs t ts m now e h
    unfold runAllReadmes
    have h2 : updateReadme fs t m now = .error e := by
      unfold updateReadme
      rw [h]
    rw [h2]

/-- Witness for C9: a file system raising a permission error at the
target makes the run abort with exactly that error, while a missing file
is recovered from. -/
theorem missing_file_handling_witness :
    ((fun _ => ReadResult.err "EACCES") "readme.md" = ReadResult.err "EACCES") ∧
      runAllReadmes ["readme.md"] [] ⟨2024, 1, 2, 3, 4, 5⟩ (fun _ => .err "EACCES") =
        ((fun _ => ReadResult.err "EACCES"), some "EACCES") ∧
      ((fun _ => ReadResult.notFound) "readme.md" = ReadResult.notFound) ∧
      updateReadme (fun _ => .notFound) "readme.md" [] ⟨2024, 1, 2, 3, 4, 5⟩ =
        .ok (writeFS (fun _ => .notFound) "readme.md"
          (spliceContent (placeholderPlain "readme.md")
            (renderFragmentPlain "readme.md" (get_directory_changes "readme.md" [])
              ⟨2024, 1, 2, 3, 4, 5⟩))) :=
  ⟨rfl,
    missing_file_handling.2.2.2.2 (fun _ => .err "EACCES") "readme.md" [] []
      ⟨2024, 1, 2, 3, 4, 5⟩ "EACCES" rfl,
    rfl,
    missing_file_handling.1 (fun _ => .notFound) "readme.md" [] ⟨2024, 1, 2, 3, 4, 5⟩ rfl⟩

/-! ## Claim C2: splicer idempotence -/

theorem renderFragmentPlain_decomp (target : String) (rec : AList) (now : Dt) :
    ∃ mid, (renderFragmentPlain target rec now).toList =
      START_MARKER.toList ++ mid ++ END_MARKER.toList :=
  ⟨("\n## Recently Updated Files\n\n*Last updated: " ++ fmtDateTime now ++ "*\n\n" ++
      (if rec.isEmpty then "*No recent changes found in this directory*\n"
       else tableHeader ++ String.join (rec.map (renderRowPlain target))) ++
      "\n").toList,
    by unfold renderFragmentPlain; rw [toList_append, toList_append]⟩

/-- C2 as amended: one `update_readme` writes the spliced content; a
second run on that output (same change map, same "now") writes the same
bytes again, provided the original content does not contain the start
marker without the end marker, and the rendered fragment contains the end
marker only as its final line and no backslash. -/
theorem splicer_idempotent (fs : FS) (target : String) (m : AList) (now : Dt) (c : String)
    (hread : fs target = .ok c)
    (himp : pyContains c START_MARKER = true → pyContains c END_MARKER = true)
    (hEuniq : ∀ i, i <
        (renderFragmentPlain target (get_directory_changes target m) now).toList.length →
      pfx END_MARKER.toList
          ((renderFragmentPlain target (get_directory_changes target m) now).toList.drop i) =
        true →
      i = (renderFragmentPlain target (get_directory_changes target m) now).toList.length -
        END_MARKER.toList.length)
    (hnb : ('\\' : Char) ∉
        (renderFragmentPlain target (get_directory_changes target m) now).toList) :
    updateReadme fs target m now = .ok (writeFS fs target
        (spliceContent c (renderFragmentPlain target (get_directory_changes target m) now))) ∧
      updateReadme (writeFS fs target
          (spliceContent c (renderFragmentPlain target (get_directory_changes target m) now)))
        target m now = .ok (writeFS (writeFS fs target
          (spliceContent c (renderFragmentPlain target (get_directory_changes target m) now)))
        target (spliceContent
          (spliceContent c (renderFragmentPlain target (get_directory_changes target m) now))
          (renderFragmentPlain target (get_directory_changes target m) now))) ∧
      spliceContent
          (spliceContent c (renderFragmentPlain target (get_directory_changes target m) now))
          (renderFragmentPlain target (get_directory_changes target m) now) =
        spliceContent c (renderFragmentPlain target (get_directory_changes target m) now) := by
  obtain ⟨mid, hmid⟩ := renderFragmentPlain_decomp target (get_directory_changes target m) now
  have hElen : END_MARKER.toList ≠ [] := by decide
  have hlen : (renderFragmentPlain target (get_directory_changes target m) now).toList.length =
      START_MARKER.toList.length + mid.length + END_MARKER.toList.length := by
    rw [hmid]; simp only [List.length_append]
  have hEuniq2 : ∀ i, pfx END_MARKER.toList
      ((renderFragmentPlain target (get_directory_changes target m) now).toList.drop i) =
        true → i = START_MARKER.toList.length + mid.length := by
    intro i hpf
    by_cases hib : i <
        (renderFragmentPlain target (get_directory_changes target m) now).toList.length
    · have := hEuniq i hib hpf
      omega
    · exfalso
      have hnil : (renderFragmentPlain target
          (get_directory_changes target m) now).toList.drop i = [] :=
        List.drop_eq_nil_of_le (by omega)
      rw [hnil] at hpf
      exact hElen ((pfx_nil_iff _).mp hpf)
  refine ⟨?_, ?_, ?_⟩
  · unfold updateReadme
    rw [hread]
  · have hread2 : (writeFS fs target
        (spliceContent c (renderFragmentPlain target (get_directory_changes target m) now)))
          target =
        .ok (spliceContent c
          (renderFragmentPlain target (get_directory_changes target m) now)) := by
      unfold writeFS
      rw [if_pos rfl]
    unfold updateReadme
    rw [hread2]
  · exact spliceContent_idem hmid hEuniq2 himp

set_option maxRecDepth 8192 in
/-- Witness for C2's amended statement on a marker-free file. -/
theorem splicer_idempotent_witness :
    ((fun _ => ReadResult.ok "hello") "readme.md" = ReadResult.ok "hello") ∧
      spliceContent
          (spliceContent "hello"
            (renderFragmentPlain "readme.md" (get_directory_changes "readme.md" [])
              ⟨2024, 1, 2, 3, 4, 5⟩))
          (renderFragmentPlain "readme.md" (get_directory_changes "readme.md" [])
            ⟨2024, 1, 2, 3, 4, 5⟩) =
        spliceContent "hello"
          (renderFragmentPlain "readme.md" (get_directory_changes "readme.md" [])
            ⟨2024, 1, 2, 3, 4, 5⟩) :=
  ⟨rfl,
    (splicer_idempotent (fun _ => .ok "hello") "readme.md" [] ⟨2024, 1, 2, 3, 4, 5⟩ "hello"
      rfl (by decide) (by decide) (by decide)).2.2⟩

set_option maxRecDepth 8192 in
/-- Counterexample for C2 as stated: on a file whose content holds the
start marker but no end marker, the first run appends the fragment and
the second run collapses everything from the stray start marker onward,
so the outputs differ. -/
theorem splicer_not_idempotent_counterexample :
    pyContains "A <!-- RECENT_CHANGES_START --> B" START_MARKER = true ∧
      pyContains "A <!-- RECENT_CHANGES_START --> B" END_MARKER = false ∧
      spliceContent
          (spliceContent "A <!-- RECENT_CHANGES_START --> B"
            (renderFragmentPlain "readme.md" (get_directory_changes "readme.md" [])
              ⟨2024, 1, 2, 3, 4, 5⟩))
          (renderFragmentPlain "readme.md" (get_directory_changes "readme.md" [])
            ⟨2024, 1, 2, 3, 4, 5⟩) ≠
        spliceContent "A <!-- RECENT_CHANGES_START --> B"
          (renderFragmentPlain "readme.md" (get_directory_changes "readme.md" [])
            ⟨2024, 1, 2, 3, 4, 5⟩) := by
  refine ⟨by decide, by decide, by decide⟩

/-! ## Claim C8: splice behaviour -/

/-- C8 as amended: when the content holds a start marker later followed
by an end marker, the splice substitutes the non-greedy spans and the
result contains the rendered fragment; when at most one marker is
present, the fragment is appended after two newlines and the result
contains it.  (When both markers are present but every end marker
precedes every start marker, the regex has no match and the content is
returned unchanged — see the counterexample.) -/
theorem splice_behaviour (content frag : String) :
    ((∃ a mm b, content.toList = a ++ START_MARKER.toList ++ mm ++ END_MARKER.toList ++ b) →
      pyContains (spliceContent content frag) frag = true) ∧
    (¬ (pyContains content START_MARKER = true ∧ pyContains content END_MARKER = true) →
      spliceContent content frag = content ++ "\n\n" ++ frag ∧
        pyContains (spliceContent content frag) frag = true) := by
  have hS : START_MARKER.toList ≠ [] := by decide
  have hE : END_MARKER.toList ≠ [] := by decide
  constructor
  · rintro ⟨a, mm, b, hdec⟩
    have hoS : hasSubL START_MARKER.toList content.toList = true := by
      apply hasSub_of_occ (i := a.length)
      rw [hdec, List.append_assoc, List.append_assoc, List.append_assoc, List.drop_left a _]
      exact pfx_append_self _ _
    have hoE : hasSubL END_MARKER.toList content.toList = true := by
      apply hasSub_of_occ (i := (a ++ START_MARKER.toList ++ mm).length)
      have hre : content.toList =
          (a ++ START_MARKER.toList ++ mm) ++ (END_MARKER.toList ++ b) := by
        rw [hdec]; simp [List.append_assoc]
      rw [hre, List.drop_left _ _]
      exact pfx_append_self _ _
    have hcond : (hasSubL START_MARKER.toList content.toList &&
        hasSubL END_MARKER.toList content.toList) = true := by rw [hoS, hoE]; rfl
    show hasSubL frag.toList (spliceL content.toList frag.toList) = true
    unfold spliceL
    rw [if_pos hcond]
    exact subAll_contains_of_match hS hE hdec
  · intro hnot
    have hcond : (hasSubL START_MARKER.toList content.toList &&
        hasSubL END_MARKER.toList content.toList) = false := by
      cases hxS : hasSubL START_MARKER.toList content.toList with
      | false => rfl
      | true =>
        cases hxE : hasSubL END_MARKER.toList content.toList with
        | false => rfl
        | true => exact absurd ⟨hxS, hxE⟩ hnot
    have hnn : ("\n\n" : String).toList = ['\n', '\n'] := by decide
    have hlist : (content ++ "\n\n" ++ frag).toList =
        content.toList ++ '\n' :: '\n' :: frag.toList := by
      rw [toList_append, toList_append, hnn, List.append_assoc]
      rfl
    have happ : spliceContent content frag = content ++ "\n\n" ++ frag := by
      unfold spliceContent spliceL
      rw [if_neg (by intro hc; rw [hc] at hcond; exact Bool.true_eq_false.mp hcond)]
      rw [← hlist, mk_toList]
    refine ⟨happ, ?_⟩
    rw [happ]
    show hasSubL frag.toList (content ++ "\n\n" ++ frag).toList = true
    rw [hlist]
    apply hasSub_of_occ (i := content.toList.length + 2)
    rw [drop_pad]
    exact pfx_self _

set_option maxRecDepth 8192 in
/-- Witness for C8 at a content with one well-formed marker pair. -/
theorem splice_behaviour_witness :
    pyContains
        (spliceContent "x <!-- RECENT_CHANGES_START --> y <!-- RECENT_CHANGES_END --> z"
          (renderFragmentPlain "readme.md" (get_directory_changes "readme.md" [])
            ⟨2024, 1, 2, 3, 4, 5⟩))
        (renderFragmentPlain "readme.md" (get_directory_changes "readme.md" [])
          ⟨2024, 1, 2, 3, 4, 5⟩) = true :=
  (splice_behaviour "x <!-- RECENT_CHANGES_START --> y <!-- RECENT_CHANGES_END --> z"
      (renderFragmentPlain "readme.md" (get_directory_changes "readme.md" [])
        ⟨2024, 1, 2, 3, 4, 5⟩)).1
    ⟨"x ".toList, " y ".toList, " z".toList, by decide⟩

set_option maxRecDepth 8192 in
/-- Counterexample for C8 as stated: with the end marker before the start
marker both markers are present, yet the substitution matches nothing,
the content is returned unchanged, and the result does not contain the
fragment. -/
theorem splice_wrong_order_counterexample :
    pyContains "<!-- RECENT_CHANGES_END --> x <!-- RECENT_CHANGES_START -->" START_MARKER =
        true ∧
      pyContains "<!-- RECENT_CHANGES_END --> x <!-- RECENT_CHANGES_START -->" END_MARKER =
        true ∧
      spliceContent "<!-- RECENT_CHANGES_END --> x <!-- RECENT_CHANGES_START -->"
          (renderFragmentPlain "readme.md" (get_directory_changes "readme.md" [])
            ⟨2024, 1, 2, 3, 4, 5⟩) =
        "<!-- RECENT_CHANGES_END --> x <!-- RECENT_CHANGES_START -->" ∧
      pyContains
          (spliceContent "<!-- RECENT_CHANGES_END --> x <!-- RECENT_CHANGES_START -->"
            (renderFragmentPlain "readme.md" (get_directory_changes "readme.md" [])
              ⟨2024, 1, 2, 3, 4, 5⟩))
          (renderFragmentPlain "readme.md" (get_directory_changes "readme.md" [])
            ⟨2024, 1, 2, 3, 4, 5⟩) = false := by
  refine ⟨by decide, by decide, by decide, by decide⟩

/-! ## Claim C6: Jekyll link rewriting of markdown files -/

theorem replace_unique_suffix {P R q : List Char} (hP : P ≠ [])
    (hnosub : ∀ i, i < q.length → pfx P ((q ++ P).drop i) = false) :
    replAllL P R (q ++ P) = q ++ R := by
  rw [replAll_skip hP q P hnosub]
  congr 1
  cases hp : P with
  | nil => exact absurd hp hP
  | cons p0 pT =>
    subst hp
    rw [replAll_cons_pos R hP (pfx_self _), List.drop_length, replAll_nil, List.append_nil]

theorem takeWhile_all {q : Char → Bool} :
    ∀ l : List Char, (∀ c ∈ l, q c = true) → l.takeWhile q = l := by
  intro l
  induction l with
  | nil => intro _; rfl
  | cons c cs ih =>
    intro h
    rw [List.takeWhile_cons_of_pos (h c (List.mem_cons_self c cs)),
      ih fun x hx => h x (List.mem_cons_of_mem c hx)]

theorem basenameL_suffix (l : List Char) : ∃ pre, l = pre ++ basenameL l := by
  refine ⟨(l.reverse.dropWhile (fun ch => ch != '/')).reverse, ?_⟩
  unfold basenameL
  conv_rhs => rw [← List.reverse_append]
  rw [List.takeWhile_append_dropWhile, List.reverse_reverse]

theorem basenameL_no_slash {l : List Char} {c : Char} (hc : c ∈ basenameL l) :
    (c != '/') = true := by
  unfold basenameL at hc
  rw [List.mem_reverse] at hc
  exact List.mem_takeWhile_imp (l := l.reverse) (p := fun ch => ch != '/') hc

theorem basenameL_idem (l : List Char) : basenameL (basenameL l) = basenameL l := by
  have hall : ∀ c ∈ (basenameL l).reverse, (c != '/') = true := fun c hc =>
    basenameL_no_slash (List.mem_reverse.mp hc)
  show ((basenameL l).reverse.takeWhile (fun ch => ch != '/')).reverse = basenameL l
  rw [takeWhile_all _ hall, List.reverse_reverse]

theorem ext_suffix_base {base extL : List Char} (h : extOfBase base = extL)
    (hne : extL ≠ []) : ∃ t, base = t ++ extL := by
  unfold extOfBase at h
  cases hlast : lastIdx '.' base with
  | none =>
    rw [hlast] at h
    exact absurd h.symm hne
  | some j =>
    rw [hlast] at h
    have h2 : (if ((base.take j).any fun ch => ch != '.') = true
        then base.drop j else []) = extL := h
    by_cases hany : ((base.take j).any fun ch => ch != '.') = true
    · rw [if_pos hany] at h2
      exact ⟨base.take j, by rw [← h2, List.take_append_drop]⟩
    · rw [if_neg hany] at h2
      exact absurd h2.symm hne

theorem ext_suffix {p : String} {extL : List Char}
    (h : splitextExt (basename p) = String.mk extL) (hne : extL ≠ []) :
    ∃ q, p.toList = q ++ extL ∧ q.length + extL.length = p.toList.length := by
  have hd : extOfBase (basenameL p.toList) = extL := by
    have h2 : splitextExt (basename p) = String.mk (extOfBase (basenameL p.toList)) := by
      unfold splitextExt basename
      rw [show (String.mk (basenameL p.toList)).toList = basenameL p.toList from rfl,
        basenameL_idem]
    rw [h2] at h
    exact congrArg String.data h
  obtain ⟨t, ht⟩ := ext_suffix_base hd hne
  obtain ⟨pre, hpre⟩ := basenameL_suffix p.toList
  have hfull : p.toList = (pre ++ t) ++ extL := by
    rw [List.append_assoc, ← ht, ← hpre]
  refine ⟨pre ++ t, hfull, ?_⟩
  have hl := congrArg List.length hfull
  simp only [List.length_append] at hl
  rw [List.length_append]
  omega

theorem no_markdown_in_slashed {q pl : List Char} (hq : pl = q ++ ['.', 'm', 'd'])
    (hNoM : ∀ i, i < pl.length → pfx ".markdown".toList (pl.drop i) = false) :
    ∀ i, pfx ".markdown".toList ((q ++ ['/']).drop i) = false := by
  intro i
  cases hb : pfx ".markdown".toList ((q ++ ['/']).drop i) with
  | false => rfl
  | true =>
    exfalso
    have hlen := pfx_length_le hb
    have hMlen : (".markdown".toList).length = 9 := by decide
    rw [hMlen, List.length_drop, List.length_append] at hlen
    have hsing : (['/'] : List Char).length = 1 := rfl
    rw [hsing] at hlen
    by_cases hroom : i + 9 ≤ q.length
    · have hile : i ≤ q.length := by omega
      have h1 : (q ++ ['/']).drop i = q.drop i ++ ['/'] :=
        List.drop_append_of_le_length hile
      rw [h1, pfx_append_room _ (by rw [List.length_drop]; rw [hMlen]; omega)] at hb
      have h2 : pl.drop i = q.drop i ++ ['.', 'm', 'd'] := by
        rw [hq]
        exact List.drop_append_of_le_length hile
      have h3 : pfx ".markdown".toList (pl.drop i) = true := by
        rw [h2]
        exact pfx_extend _ hb
      have hi2 : i < pl.length := by
        have := congrArg List.length hq
        simp only [List.length_append] at this
        omega
      rw [hNoM i hi2] at h3
      exact Bool.false_ne_true h3
    · have hexact : ".markdown".toList = (q ++ ['/']).drop i := by
        have h4 := (pfx_iff _ _).mp hb
        rw [hMlen] at h4
        rw [List.take_of_length_le
          (by rw [List.length_drop, List.length_append, hsing]; omega)] at h4
        exact h4.symm
      have hmem : ('/' : Char) ∈ ".markdown".toList := by
        rw [hexact]
        have h5 : (q ++ ['/']).drop i = q.drop i ++ ['/'] :=
          List.drop_append_of_le_length (by omega)
        rw [h5]
        exact List.mem_append_right _ (List.mem_singleton.mpr rfl)
      exact absurd hmem (by decide)

theorem str_ext {a b : String} (h : a.toList = b.toList) : a = b := by
  cases a
  cases b
  exact congrArg String.mk h

/-- C6 as amended: for a non-post changed file whose basename extension
is `.md`, not a README, the rendered Jekyll link target is the path with
the extension replaced by a trailing slash — provided `.md` occurs in the
path only as its suffix and `.markdown` not at all (the code replaces
every occurrence, see the counterexample); symmetrically for a
`.markdown` extension; and every other non-post file is linked by its
path rooted at `/`. -/
theorem jekyll_md_link_rewriting :
    (∀ p : String,
      pyStartsWith p "_posts/" = false →
      splitextExt (basename p) = ".md" →
      pyEndsWith p "README.md" = false →
      (∀ i, i < p.toList.length - 3 → pfx ".md".toList (p.toList.drop i) = false) →
      (∀ i, i < p.toList.length → pfx ".markdown".toList (p.toList.drop i) = false) →
      jekyllFileLink p =
        "/" ++ String.mk (p.toList.take (p.toList.length - 3)) ++ "/") ∧
    (∀ p : String,
      pyStartsWith p "_posts/" = false →
      splitextExt (basename p) = ".markdown" →
      pyEndsWith p "README.md" = false →
      (∀ i, i < p.toList.length → pfx ".md".toList (p.toList.drop i) = false) →
      (∀ i, i < p.toList.length - 9 → pfx ".markdown".toList (p.toList.drop i) = false) →
      jekyllFileLink p =
        "/" ++ String.mk (p.toList.take (p.toList.length - 9)) ++ "/") ∧
    (∀ p : String,
      pyStartsWith p "_posts/" = false →
      ((splitextExt (basename p) = ".md" ∨ splitextExt (basename p) = ".markdown") →
        pyEndsWith p "README.md" = true) →
      jekyllFileLink p = "/" ++ p) := by
  refine ⟨?_, ?_, ?_⟩
  · intro p hPosts hExt hRme hOnce hNoM
    have hlink : jekyllFileLink p =
        "/" ++ pyReplace (pyReplace p ".md" "/") ".markdown" "/" := by
      by_cases hlow : pyLower (basename p) = "readme.md" <;>
        simp [jekyllFileLink, jekyllLinkName, hPosts, hExt, hRme, hlow]
    obtain ⟨q, hq, hqlen⟩ := ext_suffix
      (hExt.trans (show (".md" : String) = String.mk ['.', 'm', 'd'] from by decide))
      (by decide)
    have hq3 : (['.', 'm', 'd'] : List Char).length = 3 := rfl
    have hrepl1 : pyReplace p ".md" "/" = String.mk (q ++ ['/']) := by
      unfold pyReplace
      congr 1
      rw [show (".md" : String).toList = ['.', 'm', 'd'] from by decide,
        show ("/" : String).toList = ['/'] from by decide, hq]
      apply replace_unique_suffix (by decide)
      intro i hi
      rw [← hq]
      exact hOnce i (by omega)
    have hrepl2 : pyReplace (String.mk (q ++ ['/'])) ".markdown" "/" =
        String.mk (q ++ ['/']) := by
      unfold pyReplace
      congr 1
      rw [show (String.mk (q ++ ['/'])).toList = q ++ ['/'] from rfl]
      exact replAll_none (by decide) (q ++ ['/']) (no_markdown_in_slashed hq hNoM)
    have hqtake : p.toList.take (p.toList.length - 3) = q := by
      rw [show p.toList.length - 3 = q.length from by omega, hq, List.take_left]
    rw [hlink, hrepl1, hrepl2, hqtake]
    apply str_ext
    show ("/" ++ String.mk (q ++ ['/'])).data = ("/" ++ String.mk q ++ "/").data
    simp only [String.data_append, List.append_assoc,
      show ("/" : String).data = ['/'] from by decide]
  · intro p hPosts hExt hRme hNoMd hOnce
    have hlink : jekyllFileLink p =
        "/" ++ pyReplace (pyReplace p ".md" "/") ".markdown" "/" := by
      by_cases hlow : pyLower (basename p) = "readme.md" <;>
        simp [jekyllFileLink, jekyllLinkName, hPosts, hExt, hRme, hlow]
    obtain ⟨q, hq, hqlen⟩ := ext_suffix
      (hExt.trans (show (".markdown" : String) =
        String.mk ['.', 'm', 'a', 'r', 'k', 'd', 'o', 'w', 'n'] from by decide))
      (by decide)
    have hq9 : (['.', 'm', 'a', 'r', 'k', 'd', 'o', 'w', 'n'] : List Char).length = 9 := rfl
    have hrepl1 : pyReplace p ".md" "/" = p := by
      unfold pyReplace
      conv_rhs => rw [← mk_toList p]
      congr 1
      rw [show (".md" : String).toList = ['.', 'm', 'd'] from by decide]
      apply replAll_none (by decide)
      intro i
      by_cases hi : i < p.toList.length
      · exact hNoMd i hi
      · rw [List.drop_eq_nil_of_le (by omega)]
        rfl
    have hrepl2 : pyReplace p ".markdown" "/" = String.mk (q ++ ['/']) := by
      unfold pyReplace
      congr 1
      rw [show (".markdown" : String).toList =
          ['.', 'm', 'a', 'r', 'k', 'd', 'o', 'w', 'n'] from by decide,
        show ("/" : String).toList = ['/'] from by decide, hq]
      apply replace_unique_suffix (by decide)
      intro i hi
      rw [← hq]
      exact hOnce i (by omega)
    have hqtake : p.toList.take (p.toList.length - 9) = q := by
      rw [show p.toList.length - 9 = q.length from by omega, hq, List.take_left]
    rw [hlink, hrepl1, hrepl2, hqtake]
    apply str_ext
    show ("/" ++ String.mk (q ++ ['/'])).data = ("/" ++ String.mk q ++ "/").data
    simp only [String.data_append, List.append_assoc,
      show ("/" : String).data = ['/'] from by decide]
  · intro p hPosts hcond
    have hfalse : ((splitextExt (basename p) = ".md" ||
        splitextExt (basename p) = ".markdown") && !pyEndsWith p "README.md") = false := by
      by_cases h1 : splitextExt (basename p) = ".md"
      · rw [hcond (Or.inl h1)]
        simp
      · by_cases h2 : splitextExt (basename p) = ".markdown"
        · rw [hcond (Or.inr h2)]
          simp
        · simp [h1, h2]
    by_cases hlow : pyLower (basename p) = "readme.md" <;>
      simp [jekyllFileLink, jekyllLinkName, hPosts, hfalse, hlow]

set_option maxRecDepth 8192 in
/-- Witness for C6's amended statement: `docs/notes.md` is linked as
`/docs/notes/`, and a plain asset keeps its path rooted at `/`. -/
theorem jekyll_md_link_rewriting_witness :
    jekyllFileLink "docs/notes.md" =
        "/" ++ String.mk ((String.toList "docs/notes.md").take 10) ++ "/" ∧
      jekyllFileLink "img/photo.png" = "/" ++ "img/photo.png" :=
  ⟨(jekyll_md_link_rewriting.1 "docs/notes.md" (by decide) (by decide) (by decide)
      (by decide) (by decide)),
    (jekyll_md_link_rewriting.2.2 "img/photo.png" (by decide) (fun h => by
      exact absurd h (by decide)))⟩

set_option maxRecDepth 8192 in
/-- Counterexample for C6 as stated: for the changed file `a.md/b.md`
(a `.md` file inside a directory whose name also ends in `.md`,
non-post, non-README) the code replaces every `.md` occurrence and links
`/a//b/`, not the extension-only rewrite `/a.md/b/`. -/
theorem jekyll_md_link_counterexample :
    pyStartsWith "a.md/b.md" "_posts/" = false ∧
      splitextExt (basename "a.md/b.md") = ".md" ∧
      pyEndsWith "a.md/b.md" "README.md" = false ∧
      jekyllFileLink "a.md/b.md" = "/a//b/" ∧
      ("/a//b/" : String) ≠ "/a.md/b/" := by
  refine ⟨by decide, by decide, by decide, by decide, by decide⟩

end OpenData
